/- Verification development for the MAILDASH ingestion/aggregation core.

   Shallow embedding of:
     backend/app/analytics.py      (header parsing, sheet normalization, upsert store)
     backend/app/stats.py          (region filter, rolling daily/monthly stats, latest snapshot)
     backend/app/display_by_date.py (time-slot normalization, by-date snapshot)

   Machine reals (Python floats) are modelled as rationals; SQLite's
   `timeseries_data` table, whose two partial unique indexes guarantee at most
   one row per identity tuple, is modelled as a finite map from identity
   tuples to rows. -/
import Mathlib

/-! ### Python string primitives (ASCII fragment used by the code base) -/

/-- Python `str.strip()`: drop leading and trailing whitespace.  The inputs of
this code base are ASCII, where Python's and Lean's whitespace predicates
agree. -/
def pyStrip (s : String) : String :=
  ⟨((s.data.dropWhile Char.isWhitespace).reverse.dropWhile Char.isWhitespace).reverse⟩

/-- Python `str.upper()` on the ASCII strings used for workspace names. -/
def pyUpper (s : String) : String :=
  ⟨s.data.map Char.toUpper⟩

/-- Python `str.zfill(2)` as applied in `_normalize_slot`: the arguments there
are digit strings, so the sign-handling branch of `zfill` never fires and the
effect is left-padding with `'0'` to length 2. -/
def zfill2 (s : String) : String :=
  ⟨List.replicate (2 - s.data.length) '0' ++ s.data⟩

/-! ### display_by_date.py: time-slot normalization -/

/-- Allowed intraday UTC slots (`TIME_SLOTS` in display_by_date.py). -/
def TIME_SLOTS : List String := ["01:30:00", "09:30:00", "17:30:00"]

/-- Embedding of `_normalize_slot` (display_by_date.py).  Mirrors the three
steps of the Python code: the length-4 all-digits rewrite `"0930" -> "09:30"`,
the two-part colon rewrite `"9:30" -> "09:30:00"` (only when the trimmed text
has length at most 5), and the final membership test against `TIME_SLOTS`. -/
def normalize_slot (s : String) : Option String :=
  if s = "" then none
  else
    let raw := pyStrip s
    let raw :=
      if raw.data.length = 4 ∧ raw.data.all Char.isDigit then
        (⟨raw.data.take 2 ++ ':' :: raw.data.drop 2⟩ : String)
      else raw
    let raw :=
      if raw.data.contains ':' ∧ raw.data.length ≤ 5 then
        match raw.data.splitOn ':' with
        | [hh, mm] =>
            (⟨(zfill2 ⟨hh⟩).data ++ ':' :: (zfill2 ⟨mm⟩).data ++ [':', '0', '0']⟩ : String)
        | _ => raw
      else raw
    if raw ∈ TIME_SLOTS then some raw else none

/-! ### Calendar arithmetic (proleptic Gregorian, as used by pandas datetimes) -/

/-- Gregorian leap-year rule. -/
def isLeap (y : Nat) : Bool :=
  (y % 4 == 0 && y % 100 != 0) || y % 400 == 0

/-- Days in a month of the Gregorian calendar. -/
def daysInMonth (y m : Nat) : Nat :=
  if m = 2 then (if isLeap y then 29 else 28)
  else if m = 4 ∨ m = 6 ∨ m = 9 ∨ m = 11 then 30
  else 31

/-- Days in the months of year `y` strictly before month `m` (month numbers
start at 1). -/
def daysBeforeMonth (y : Nat) : Nat → Nat
  | 0 => 0
  | 1 => 0
  | m + 2 => daysBeforeMonth y (m + 1) + daysInMonth y (m + 1)

/-- Days in the years strictly before year `y` (counted from year 1). -/
def daysBeforeYear (y : Nat) : Nat :=
  365 * (y - 1) + (y - 1) / 4 - (y - 1) / 100 + (y - 1) / 400

/-- Day count of a calendar date, measured from 0001-01-01. -/
def dayIndex (y m d : Nat) : Nat :=
  daysBeforeYear y + daysBeforeMonth y m + (d - 1)

/-- Fields of a timezone-aware UTC datetime as built by `_parse_header` and
stored through `_iso_utc` (second precision). -/
structure UtcInstant where
  year : Nat
  month : Nat
  day : Nat
  hour : Nat
  minute : Nat
  second : Nat
deriving DecidableEq, Repr

/-- Minutes elapsed from 0001-01-01 00:00 UTC. -/
def toMinutes (t : UtcInstant) : Nat :=
  1440 * dayIndex t.year t.month t.day + 60 * t.hour + t.minute

/-- Seconds elapsed from 0001-01-01 00:00:00 UTC; the chronological order on
instants. -/
def toSeconds (t : UtcInstant) : Nat :=
  86400 * dayIndex t.year t.month t.day + 3600 * t.hour + 60 * t.minute + t.second

/-- Minute index of the smallest minute-resolution instant representable as a
pandas nanosecond timestamp (`pd.Timestamp.min` is
1677-09-21 00:12:43.145224193, so minute-resolution instants start at 00:13 of
that day). -/
def pdMinMinutes : Nat := 1440 * dayIndex 1677 9 21 + 13

/-- Minute index of the largest minute-resolution instant representable as a
pandas nanosecond timestamp (`pd.Timestamp.max` is
2262-04-11 23:47:16.854775807). -/
def pdMaxMinutes : Nat := 1440 * dayIndex 2262 4 11 + 60 * 23 + 47

/-- Success condition of `pd.to_datetime(f"{year_hint}-{mm}-{dd} {hh}:{mi}",
format="%Y-%m-%d %H:%M")` inside `_parse_header`'s try/except: the calendar
fields must be valid and the resulting instant must fit in a pandas nanosecond
timestamp (out-of-range years raise and are turned into `None` by the
`except` clause; the pandas range also subsumes the 4-digit `%Y` constraint). -/
def pdDatetimeOK (y : Int) (mm dd hh mi : Nat) : Bool :=
  decide (1677 ≤ y) && decide (y ≤ 2262) &&
  decide (1 ≤ mm) && decide (mm ≤ 12) &&
  decide (1 ≤ dd) && decide (dd ≤ daysInMonth y.toNat mm) &&
  decide (hh ≤ 23) && decide (mi ≤ 59) &&
  decide (pdMinMinutes ≤ 1440 * dayIndex y.toNat mm dd + 60 * hh + mi) &&
  decide (1440 * dayIndex y.toNat mm dd + 60 * hh + mi ≤ pdMaxMinutes)

/-! ### analytics.py: header parsing -/

/-- Numeric value of a digit string (the integer conversion applied to the
captured regex groups when they are interpolated into the datetime string). -/
def digitsToNat (ds : List Char) : Nat :=
  ds.foldl (fun a c => 10 * a + (c.toNat - 48)) 0

/-- Separator class `[-_ ]` of the header regex. -/
def headerSep (c : Char) : Bool :=
  c == '-' || c == '_' || c == ' '

/-- Embedding of the anchored match
`re.match(r"(\d{1,2})/(\d{1,2})[-_ ]?(\d{1,2})(\d{2})$", txt)` from
`_parse_header`, returning the captured groups `(month, day, hour, minute)`
as numbers.  The month group must be a run of 1-2 digits followed by `'/'`.
After the slash, either the remainder is all digits — then the backtracking of
the two greedy `\d{1,2}` groups resolves purely by the total digit count
(4 digits: day 1, hour 1; 5 digits: day 2, hour 1; 6 digits: day 2, hour 2;
3 or over 6 digits cannot be split) — or the single separator character is the
first non-digit after 1-2 day digits and must be followed by 3-4 digits
(1-2 hour digits and exactly 2 minute digits) ending the string. -/
def matchHeader (cs : List Char) : Option (Nat × Nat × Nat × Nat) :=
  let mmD := cs.takeWhile Char.isDigit
  if 1 ≤ mmD.length ∧ mmD.length ≤ 2 then
    match cs.dropWhile Char.isDigit with
    | sl :: rest =>
      if sl ≠ '/' then none
      else if rest.all Char.isDigit then
        if rest.length = 4 then
          some (digitsToNat mmD, digitsToNat (rest.take 1),
                digitsToNat ((rest.drop 1).take 1), digitsToNat (rest.drop 2))
        else if rest.length = 5 then
          some (digitsToNat mmD, digitsToNat (rest.take 2),
                digitsToNat ((rest.drop 2).take 1), digitsToNat (rest.drop 3))
        else if rest.length = 6 then
          some (digitsToNat mmD, digitsToNat (rest.take 2),
                digitsToNat ((rest.drop 2).take 2), digitsToNat (rest.drop 4))
        else none
      else
        let ddD := rest.takeWhile Char.isDigit
        match rest.dropWhile Char.isDigit with
        | c :: timeD =>
          if headerSep c ∧ 1 ≤ ddD.length ∧ ddD.length ≤ 2 ∧
              timeD.all Char.isDigit ∧ 3 ≤ timeD.length ∧ timeD.length ≤ 4 then
            some (digitsToNat mmD, digitsToNat ddD,
                  digitsToNat (timeD.take (timeD.length - 2)),
                  digitsToNat (timeD.drop (timeD.length - 2)))
          else none
        | [] => none
    | _ => none
  else none

/-- Embedding of `_parse_header` (analytics.py): strip the header text, match
the regex, build the datetime from the captured groups and the year hint, and
mark it UTC.  A failed match or an invalid/unrepresentable calendar value
yields `none`. -/
def parse_header (col : String) (year_hint : Int) : Option UtcInstant :=
  match matchHeader (pyStrip col).data with
  | none => none
  | some (mm, dd, hh, mi) =>
    if pdDatetimeOK year_hint mm dd hh mi then
      some ⟨year_hint.toNat, mm, dd, hh, mi, 0⟩
    else none

/-! ### analytics.py: canonical timestamp formatting -/

/-- Two zero-padded decimal digits; for `n ≤ 99` this is exactly the
`%m/%d/%H/%M/%S` rendering of `strftime`. -/
def pad2 (n : Nat) : List Char :=
  [Nat.digitChar (n / 10 % 10), Nat.digitChar (n % 10)]

/-- Four zero-padded decimal digits; for `n ≤ 9999` this is exactly the `%Y`
rendering of `strftime`. -/
def pad4 (n : Nat) : List Char :=
  pad2 (n / 100) ++ pad2 (n % 100)

/-- Embedding of `_iso_utc` on in-range UTC instants: strftime
`"%Y-%m-%d %H:%M:%S%z"` followed by the colon insertion in the offset, giving
the canonical shape `"YYYY-MM-DD HH:MM:SS+00:00"`. -/
def format_utc (t : UtcInstant) : String :=
  ⟨pad4 t.year ++ '-' :: pad2 t.month ++ '-' :: pad2 t.day ++ ' ' :: pad2 t.hour ++
    ':' :: pad2 t.minute ++ ':' :: pad2 t.second ++ ['+', '0', '0', ':', '0', '0']⟩

/-- Decidable check for the spec's canonical timestamp regex
`^\d{4}-\d{2}-\d{2} \d{2}:\d{2}:\d{2}\+00:00$` (fixed width 25). -/
def canonicalTsShape (s : String) : Bool :=
  match s.data with
  | [y1, y2, y3, y4, a1, m1, m2, a2, d1, d2, sp, h1, h2, b1, n1, n2, b2, e1, e2,
      pl, z1, z2, b3, z3, z4] =>
    y1.isDigit && y2.isDigit && y3.isDigit && y4.isDigit &&
    m1.isDigit && m2.isDigit && d1.isDigit && d2.isDigit &&
    h1.isDigit && h2.isDigit && n1.isDigit && n2.isDigit &&
    e1.isDigit && e2.isDigit &&
    (a1 == '-') && (a2 == '-') && (sp == ' ') && (b1 == ':') && (b2 == ':') &&
    (pl == '+') && (z1 == '0') && (z2 == '0') && (b3 == ':') && (z3 == '0') && (z4 == '0')
  | _ => false

/-! ### Header shapes used to compare parser and spec (claim C5) -/

/-- Separator characters allowed between the day and the time digits. -/
def sepChars : List Char := ['-', '_', ' ']

/-- Modelled from the spec: the header shape the spec claims `parse_header`
accepts — 1-2 digit month, `'/'`, 1-2 digit day, an optional single separator
from `[-_ ]`, then an exactly 2-digit hour and exactly 2-digit minute ending
the text.  Executable checker used only as the refinement comparator for the
code's regex. -/
def specHeaderShape (s : String) : Bool :=
  let cs := (pyStrip s).data
  let mmD := cs.takeWhile Char.isDigit
  (decide (1 ≤ mmD.length ∧ mmD.length ≤ 2)) &&
  (match cs.dropWhile Char.isDigit with
   | '/' :: rest =>
     if rest.all Char.isDigit then
       decide (rest.length = 5 ∨ rest.length = 6)
     else
       (let ddD := rest.takeWhile Char.isDigit
        match rest.dropWhile Char.isDigit with
        | c :: timeD =>
          headerSep c && decide (1 ≤ ddD.length ∧ ddD.length ≤ 2) &&
          timeD.all Char.isDigit && decide (timeD.length = 4)
        | [] => false)
   | _ => false)

/-- Amended header shape: like the spec's, except that the hour may have 1 or
2 digits (the code's regex uses `(\d{1,2})` for the hour group).  Stated
declaratively as a decomposition of the character list. -/
def AmendedHeaderShape (cs : List Char) : Prop :=
  ∃ mmD ddD sep hhD miD : List Char,
    cs = mmD ++ '/' :: (ddD ++ sep ++ hhD ++ miD) ∧
    (∀ c ∈ mmD, c.isDigit) ∧ (∀ c ∈ ddD, c.isDigit) ∧
    (∀ c ∈ hhD, c.isDigit) ∧ (∀ c ∈ miD, c.isDigit) ∧
    1 ≤ mmD.length ∧ mmD.length ≤ 2 ∧ 1 ≤ ddD.length ∧ ddD.length ≤ 2 ∧
    (sep = [] ∨ ∃ c ∈ sepChars, sep = [c]) ∧
    1 ≤ hhD.length ∧ hhD.length ≤ 2 ∧ miD.length = 2

/-! ### analytics.py: the SQLite store and `append_timeseries` -/

/-- A row of the `timeseries_data` table. -/
structure SRow where
  client : String
  region : Option String
  workspace : String
  parameter : String
  ts_utc : String
  value : ℚ
  message_id : String
  received_utc : Option String
  sheet_name : String
deriving DecidableEq, Repr

/-- Identity-tuple type: client, region (absent for region-less rows),
sheet name, parameter, canonical timestamp. -/
abbrev RowId := String × Option String × String × String × String

/-- Identity tuple of a row, per the partial unique indexes
`uq_tsd_with_region` (`(client, region, sheet_name, parameter, ts_utc)` where
region is present) and `uq_tsd_without_region`
(`(client, sheet_name, parameter, ts_utc)` where region is NULL) created by
`_ensure_table`.  Packing the optional region into one tuple component renders
both partial indexes at once: two NULL-region rows collide exactly when the
remaining four columns agree, and a NULL-region row never collides with a
region-bearing one. -/
def rowKey (r : SRow) : RowId :=
  (r.client, r.region, r.sheet_name, r.parameter, r.ts_utc)

/-- The `timeseries_data` table, viewed through its uniqueness constraints:
at most one stored row per identity tuple. -/
abbrev Store := RowId → Option SRow

/-- The freshly created table. -/
def emptyStore : Store := fun _ => none

/-- Effect of one `INSERT OR REPLACE INTO timeseries_data ...` statement:
the at-most-one row conflicting with the new row's identity tuple is deleted
and the new row is inserted. -/
def insertOrReplace (m : Store) (r : SRow) : Store :=
  Function.update m (rowKey r) (some r)

/-- Embedding of `append_timeseries` (analytics.py): executemany of
`INSERT OR REPLACE` over the batch, committed as one transaction.  Returns
`((rows_written, unique_parameters), updated store)`: `rows_written` is the
length of the batch and `unique_parameters` the number of distinct parameter
labels in the batch (`df_long["parameter"].nunique()`); on an empty batch the
function returns `(0, 0)` without touching the store, which coincides with
the general formula. -/
def append_timeseries (m : Store) (batch : List SRow) : (Nat × Nat) × Store :=
  ((batch.length, (batch.map (fun r => r.parameter)).dedup.length),
    batch.foldl insertOrReplace m)

/-- Well-formedness of a store: a row is only ever filed under its own
identity tuple.  Holds for every store reachable from `emptyStore` by
upserts. -/
def StoreWF (m : Store) : Prop :=
  ∀ k r, m k = some r → rowKey r = k

/-! ### stats.py / display_by_date.py: region filter -/

/-- Embedding of `_region_where_and_params` (defined identically in stats.py
and display_by_date.py) combined with the SQL evaluation of the produced WHERE
fragment against one stored row:
if a region argument is supplied and non-blank, the fragment is
`region = ?` with the trimmed value (NULL never compares equal); otherwise it
is `(region IS NULL OR region='')`. -/
def region_where_matches (region : Option String) (row_region : Option String) : Bool :=
  match region with
  | some s =>
    if pyStrip s ≠ "" then row_region == some (pyStrip s)
    else row_region == none || row_region == some ""
  | none => row_region == none || row_region == some ""

/-- Region normalization at write time (`_normalize_sheet`, line
`region if (region and str(region).strip()) else None`): a missing or blank
region becomes NULL; otherwise the original (untrimmed) region string is
kept. -/
def normalize_region (region : Option String) : Option String :=
  match region with
  | some s => if pyStrip s ≠ "" then some s else none
  | none => none

/-! ### analytics.py: sheet normalization and workbook ingestion -/

/-- A spreadsheet cell as read with `dtype=object`: missing, text, or numeric
(numbers modelled as rationals). -/
inductive Cell where
  | blank : Cell
  | str : String → Cell
  | num : ℚ → Cell
deriving DecidableEq, Repr

/-- Python `str(cell)` as applied by `astype(str)` to the parameter column:
pandas renders a missing value as the string `"nan"`; numeric cells render via
their repr (the exact rendering of numbers is irrelevant to the claims). -/
def cellStr : Cell → String
  | Cell.blank => "nan"
  | Cell.str s => s
  | Cell.num q => toString q

/-- pandas `to_numeric(..., errors="coerce")` on one cell: numbers pass
through, missing values and text coerce to NaN and are dropped.  (Numeric
text would also coerce in pandas; workbook cells read with `dtype=object`
carry numbers as numbers, which is the only case the claims exercise.) -/
def cellNum : Cell → Option ℚ
  | Cell.num q => some q
  | _ => none

/-- One sheet of a workbook: its name, its column headers, and its cell grid
(rows aligned positionally with the headers). -/
structure Sheet where
  name : String
  headers : List String
  cells : List (List Cell)

/-- Embedding of `_normalize_sheet` (analytics.py).  Steps, in source order:
drop fully-empty rows, drop fully-empty columns, bail out on an empty frame,
take the first remaining column as stripped parameter labels and drop rows
with blank labels, parse every other header with `_parse_header` (unparseable
columns are discarded), bail out if no timestamp column survives, melt to long
form (column-major), coerce values numerically dropping failures, and attach
the constant fields: normalized region, canonical `ts_utc` via `_iso_utc`, and
provenance.  The caller-computed year hint stands in for
`_infer_year(received_iso)`, and `received_utc` is taken as the
already-canonicalized received timestamp (no claim depends on either). -/
def normalize_sheet (df : Sheet) (client : String) (region : Option String)
    (workspace : String) (message_id : String) (received_utc : Option String)
    (sheet_name : String) (year_hint : Int) : List SRow :=
  let rows0 := df.cells.filter (fun r => !(r.all (fun c => c == Cell.blank)))
  let keep := (List.range df.headers.length).filter
      (fun j => rows0.any (fun r => !(r.getD j Cell.blank == Cell.blank)))
  let headers1 := keep.map (fun j => df.headers.getD j "")
  let rows1 := rows0.map (fun r => keep.map (fun j => r.getD j Cell.blank))
  if rows1.isEmpty ∨ headers1.isEmpty then [] else
  let rows2 := (rows1.map (fun r => (pyStrip (cellStr (r.getD 0 Cell.blank)), r))).filter
      (fun pr => decide (pr.1 ≠ ""))
  let tsCols := (headers1.enum.drop 1).filterMap
      (fun ic => (parse_header ic.2 year_hint).map (fun ts => (ic.1, ts)))
  if tsCols.isEmpty then [] else
  tsCols.flatMap (fun ic =>
    rows2.filterMap (fun pr =>
      match cellNum (pr.2.getD ic.1 Cell.blank) with
      | some v =>
        some ⟨client, normalize_region region, workspace, pr.1,
              format_utc ic.2, v, message_id, received_utc, sheet_name⟩
      | none => none))

/-- Embedding of `ingest_excel` (analytics.py): normalize every sheet (the
workspace is the sheet name stripped and upper-cased, the sheet_name the raw
sheet name), keep the non-empty results, report `(0, 0)` leaving the store
unchanged when nothing is usable, and otherwise append the concatenation. -/
def ingest_excel (m : Store) (wb : List Sheet) (client : String)
    (region : Option String) (message_id : String) (received_utc : Option String)
    (year_hint : Int) : (Nat × Nat) × Store :=
  let all_dfs := (wb.map (fun sh =>
      normalize_sheet sh client region (pyUpper (pyStrip sh.name)) message_id
        received_utc sh.name year_hint)).filter (fun l => !l.isEmpty)
  if all_dfs.isEmpty then ((0, 0), m)
  else append_timeseries m all_dfs.flatten

/-! ### stats.py: rolling statistics -/

/-- A row of the dataframe built by `_read_df`: parameter, parsed UTC
timestamp, numeric value (rows failing either parse are already dropped). -/
structure QRow where
  parameter : String
  ts : UtcInstant
  value : ℚ
deriving DecidableEq, Repr

/-- Grouping key of `df["ts_utc"].dt.date`: the UTC calendar date, encoded as
its day index (the encoding is strictly monotone in the calendar date). -/
def dateKey (r : QRow) : Nat :=
  dayIndex r.ts.year r.ts.month r.ts.day

/-- Grouping key of `df["ts_utc"].dt.to_period("M")`: the UTC calendar month,
encoded as a month count. -/
def monthKey (r : QRow) : Nat :=
  12 * r.ts.year + (r.ts.month - 1)

/-- Chronological order on in-group rows (`sort_values("ts_utc")`). -/
def rowTsLe (a b : QRow) : Prop :=
  toMinutes a.ts ≤ toMinutes b.ts

instance : DecidableRel rowTsLe := fun a b => Nat.decLe _ _

/-- Python `sorted(series.unique())`: the distinct values in ascending
order. -/
def sortedUnique {α : Type} [LinearOrder α] [DecidableEq α] (l : List α) : List α :=
  List.insertionSort (fun a b => a ≤ b) l.dedup

/-- Python `lst[-n:]` for `n ≥ 1` (also matching the
`distinct[-n:] if len(distinct) >= n else distinct` idiom): the last `n`
elements, or the whole list when it is shorter. -/
def lastN (n : Nat) (l : List α) : List α :=
  l.drop (l.length - n)

/-- Python `round(x, 2)` on the rational model (Python rounds the nearest
float; ties, which round to even in Python, are not exercised by any
claim). -/
def round2 (x : ℚ) : ℚ :=
  (round (x * 100) : ℤ) / 100

/-- Arithmetic mean of a list of values (`series.mean()`). -/
def listMean (l : List ℚ) : ℚ :=
  l.sum / l.length

/-- Python `max(lst, key=f)` / `series.idxmax()`: the first element attaining
the maximal key (later elements replace the champion only when strictly
greater). -/
def maxByKey (f : α → ℚ) : List α → Option α
  | [] => none
  | a :: t => some (t.foldl (fun best r => if f best < f r then r else best) a)

/-- Python `min(lst, key=f)` / `series.idxmin()`: the first element attaining
the minimal key. -/
def minByKey (f : α → ℚ) : List α → Option α
  | [] => none
  | a :: t => some (t.foldl (fun best r => if f r < f best then r else best) a)

/-- One element of the `"daily"` list built by `_daily_stats_for_param`:
date, mean (2 decimals), and the (time, value) pairs attaining the daily max
and min. -/
structure DailyRow where
  date : Nat
  avg : ℚ
  maxTime : Nat
  maxValue : ℚ
  minTime : Nat
  minValue : ℚ
deriving DecidableEq, Repr

/-- Embedding of `_daily_stats_for_param` (stats.py): group one parameter's
rows by calendar date (ascending), sort each group chronologically, and emit
mean/max/min per date.  Groups of a present date are never empty; the default
branch is unreachable. -/
def daily_stats_for_param (g : List QRow) : List DailyRow :=
  (sortedUnique (g.map dateKey)).map (fun d =>
    let sub := List.insertionSort rowTsLe (g.filter (fun r => decide (dateKey r = d)))
    match maxByKey (fun r => r.value) sub, minByKey (fun r => r.value) sub with
    | some mx, some mn =>
      ⟨d, round2 (listMean (sub.map (fun r => r.value))),
        toMinutes mx.ts, mx.value, toMinutes mn.ts, mn.value⟩
    | _, _ => ⟨d, 0, 0, 0, 0, 0⟩)

/-- The rolling summary over the selected days (`_rolling_days_summary`):
overall mean of the daily means, and the day attaining the global max/min. -/
structure RollDays where
  avg : ℚ
  maxDayDate : Nat
  maxDayValue : ℚ
  minDayDate : Nat
  minDayValue : ℚ
deriving DecidableEq, Repr

/-- Embedding of `_rolling_days_summary` (stats.py); `none` models the empty
dict returned for an empty input. -/
def rolling_days_summary (daily : List DailyRow) : Option RollDays :=
  match maxByKey (fun r => r.maxValue) daily, minByKey (fun r => r.minValue) daily with
  | some mx, some mn =>
    some ⟨round2 (listMean (daily.map (fun r => r.avg))),
          mx.date, mx.maxValue, mn.date, mn.minValue⟩
  | _, _ => none

/-- One element of the `"months"` list built by `_monthly_stats_for_param`. -/
structure MonthRow where
  month : Nat
  avg : ℚ
deriving DecidableEq, Repr

/-- Embedding of `_monthly_stats_for_param` (stats.py): per-month mean of one
parameter's rows, months ascending. -/
def monthly_stats_for_param (g : List QRow) : List MonthRow :=
  (sortedUnique (g.map monthKey)).map (fun m =>
    ⟨m, round2 (listMean ((g.filter (fun r => decide (monthKey r = m))).map
        (fun r => r.value)))⟩)

/-- The rolling summary over the selected months (`_rolling_months_summary`). -/
structure RollMonths where
  overall_avg : ℚ
  maxMonth : MonthRow
  minMonth : MonthRow
deriving DecidableEq, Repr

/-- Embedding of `_rolling_months_summary` (stats.py). -/
def rolling_months_summary (months : List MonthRow) : Option RollMonths :=
  match maxByKey (fun r => r.avg) months, minByKey (fun r => r.avg) months with
  | some mx, some mn =>
    some ⟨round2 (listMean (months.map (fun r => r.avg))), mx, mn⟩
  | _, _ => none

/-- Per-parameter entry of the days-basis `by_parameter` result. -/
structure ParamDays where
  parameter : String
  daily : List DailyRow
  rolling : Option RollDays
deriving Repr

/-- Embedding of `compute_stats` (stats.py) with `basis="days"`, applied to
the rows already selected by `_read_df` for the
`(client, region-or-absent, workspace)` selector: clamp `n` to `[1, 7]`, keep
only the rows of the last `n` distinct calendar dates present, and emit
per-parameter daily stats (parameters in groupby order, so sorted) plus the
rolling summary; the final re-sort of the daily list by date string in the
source is the identity since the list is already date-ascending.  An empty
result models the `"No data for selected range"` response. -/
def compute_stats_days (rows : List QRow) (n : Int) : List ParamDays :=
  if rows.isEmpty then [] else
  let nn := (max 1 (min 7 n)).toNat
  let distinct_days := sortedUnique (rows.map dateKey)
  let last_n_days := lastN nn distinct_days
  let sel := rows.filter (fun r => decide (dateKey r ∈ last_n_days))
  if sel.isEmpty then [] else
  (sortedUnique (sel.map (fun r => r.parameter))).map (fun p =>
    let g := sel.filter (fun r => decide (r.parameter = p))
    let daily := daily_stats_for_param g
    ⟨p, daily, rolling_days_summary daily⟩)

/-- Per-parameter entry of the months-basis `by_parameter` result. -/
structure ParamMonths where
  parameter : String
  months : List MonthRow
  rolling : Option RollMonths
deriving Repr

/-- Embedding of `compute_stats` (stats.py) with `basis="months"`: clamp `n`
to `[1, 6]`, keep only the rows of the last `n` distinct calendar months
present, and per parameter emit the monthly means (re-filtered to the selected
months, as in the source) plus the rolling summary. -/
def compute_stats_months (rows : List QRow) (n : Int) : List ParamMonths :=
  if rows.isEmpty then [] else
  let nn := (max 1 (min 6 n)).toNat
  let distinct := sortedUnique (rows.map monthKey)
  let last_n := lastN nn distinct
  let sel := rows.filter (fun r => decide (monthKey r ∈ last_n))
  if sel.isEmpty then [] else
  (sortedUnique (sel.map (fun r => r.parameter))).map (fun p =>
    let g := sel.filter (fun r => decide (r.parameter = p))
    let mon := (monthly_stats_for_param g).filter (fun r => decide (r.month ∈ last_n))
    ⟨p, mon, rolling_months_summary mon⟩)

/-- Calendar dates covered by a days-basis result: the distinct `date` fields
occurring anywhere in the per-parameter daily lists, ascending. -/
def coveredDates (out : List ParamDays) : List Nat :=
  sortedUnique (out.flatMap (fun p => p.daily.map (fun d => d.date)))

/-- Calendar months covered by a months-basis result. -/
def coveredMonths (out : List ParamMonths) : List Nat :=
  sortedUnique (out.flatMap (fun p => p.months.map (fun r => r.month)))

/-! ### stats.py: aligned-latest snapshot -/

/-- SQL `MAX(ts_utc)` over the text column of the matching rows: the maximum
in the BINARY (code-point lexicographic) collation, `NULL`-free here since
every stored `ts_utc` is a canonical timestamp string. -/
def maxTextTs (l : List String) : Option String :=
  l.foldl (fun acc s =>
    match acc with
    | none => some s
    | some m => if m < s then some s else some m) none

/-- Embedding of the `mode == "aligned"` branch of `api_display_latest`
(stats.py), applied to the rows matching the
`(client, region-or-absent, workspace)` selector: find the maximal stored
`ts_utc` string, then return exactly the rows whose `ts_utc` equals it (empty
when there are no matching rows). -/
def api_display_latest_aligned (rows : List QRow) : List QRow :=
  match maxTextTs (rows.map (fun r => format_utc r.ts)) with
  | none => []
  | some mts => rows.filter (fun r => decide (format_utc r.ts = mts))

/-- A genuinely calendar-valid instant with a 4-digit year, the range over
which canonical formatting is order-faithful. -/
def ValidInstant (t : UtcInstant) : Prop :=
  1000 ≤ t.year ∧ t.year ≤ 9999 ∧ 1 ≤ t.month ∧ t.month ≤ 12 ∧
  1 ≤ t.day ∧ t.day ≤ daysInMonth t.year t.month ∧
  t.hour ≤ 23 ∧ t.minute ≤ 59 ∧ t.second ≤ 59

instance decidableValidInstant (t : UtcInstant) : Decidable (ValidInstant t) := by
  unfold ValidInstant
  infer_instance

/-- Field-lexicographic (chronological) strict order on instant fields,
the order realized by the canonical string formatting. -/
def FieldLex (a b : UtcInstant) : Prop :=
  a.year < b.year ∨ (a.year = b.year ∧ (a.month < b.month ∨ (a.month = b.month ∧
    (a.day < b.day ∨ (a.day = b.day ∧ (a.hour < b.hour ∨ (a.hour = b.hour ∧
      (a.minute < b.minute ∨ (a.minute = b.minute ∧ a.second < b.second)))))))))

/-! ### Concrete sample data used by the witness theorems -/

/-- Sample stored row (value 10). -/
def wOld : SRow :=
  ⟨"acme", none, "LIVE", "CPU", "2024-08-21 09:30:00+00:00", 10, "m1", none, "Sheet1"⟩

/-- Sample replacement row: same identity tuple as `wOld`, different value. -/
def wNew : SRow :=
  ⟨"acme", none, "LIVE", "CPU", "2024-08-21 09:30:00+00:00", 11, "m2", none, "Sheet1"⟩

/-- Sample store holding exactly `wOld`. -/
def wStore : Store := insertOrReplace emptyStore wOld

/-- Sample workbook sheet with one parseable timestamp column. -/
def wGoodSheet : Sheet :=
  ⟨"Live", ["param", "08/21-0930"], [[Cell.str "CPU", Cell.num 10]]⟩

/-- Sample malformed sheet: no header parses as a timestamp. -/
def wBadSheet : Sheet :=
  ⟨"Broken", ["param", "garbage"], [[Cell.str "CPU", Cell.num 1]]⟩

/-- Sample stats rows (a single parameter, one instant). -/
def wRows : List QRow := [⟨"CPU", ⟨2024, 8, 21, 9, 30, 0⟩, 10⟩]

/-- Sample daily stats rows for the rolling-summary witness. -/
def wDaily : List DailyRow := [⟨100, 5, 7, 9, 3, 1⟩, ⟨101, 6, 8, 7, 4, 2⟩]

/-- Sample instant (morning slot). -/
def wInstA : UtcInstant := ⟨2024, 8, 21, 9, 30, 0⟩

/-- Sample instant (evening slot, same day). -/
def wInstB : UtcInstant := ⟨2024, 8, 21, 17, 30, 0⟩

/-! ## Lemmas about the keyed store -/

lemma insertOrReplace_apply (m : Store) (r : SRow) (k : RowId) :
    insertOrReplace m r k = if k = rowKey r then some r else m k := by
  simp [insertOrReplace, Function.update_apply]

lemma foldl_insertOrReplace_apply (b : List SRow) (m : Store) (k : RowId) :
    b.foldl insertOrReplace m k =
      (b.reverse.find? (fun r => decide (rowKey r = k))).elim (m k) some := by
  induction b generalizing m with
  | nil => simp
  | cons a t ih =>
    simp only [List.foldl_cons, List.reverse_cons, List.find?_append, ih]
    cases h : t.reverse.find? (fun r => decide (rowKey r = k)) with
    | some r => simp
    | none =>
      simp only [Option.none_or, insertOrReplace_apply]
      by_cases hk : rowKey a = k
      · simp [List.find?_cons, hk]
      · have hk2 : ¬ k = rowKey a := fun h2 => hk h2.symm
        simp [List.find?_cons, hk, hk2]

lemma append_store_idem (m : Store) (b : List SRow) :
    (append_timeseries (append_timeseries m b).2 b).2 = (append_timeseries m b).2 := by
  funext k
  simp only [append_timeseries]
  rw [foldl_insertOrReplace_apply, foldl_insertOrReplace_apply]
  cases h : b.reverse.find? (fun r => decide (rowKey r = k)) <;> simp

lemma storeWF_empty : StoreWF emptyStore := by
  intro k r h
  simp [emptyStore] at h

lemma storeWF_insertOrReplace (m : Store) (r : SRow) (h : StoreWF m) :
    StoreWF (insertOrReplace m r) := by
  intro k x hx
  rw [insertOrReplace_apply] at hx
  by_cases hk : k = rowKey r
  · simp only [hk, if_pos rfl] at hx
    cases hx
    exact hk.symm
  · rw [if_neg hk] at hx
    exact h k x hx

/-! ## Claim C1 -/

/-- C1: ingesting the same batch (or the same workbook) twice through
`append_timeseries` leaves the store in exactly the same state as ingesting it
once — same rows under the same identity tuples, hence the same row count and
values, with no duplication; the statement is universal over batches, covering
region-present and region-absent (NULL) rows alike. -/
theorem claim_C1_ingest_idempotent :
    (∀ (m : Store) (b : List SRow),
        (append_timeseries (append_timeseries m b).2 b).2 = (append_timeseries m b).2) ∧
    (∀ (m : Store) (wb : List Sheet) (client : String) (region : Option String)
        (mid : String) (rcv : Option String) (yh : Int),
        (ingest_excel (ingest_excel m wb client region mid rcv yh).2 wb client region
            mid rcv yh).2 =
          (ingest_excel m wb client region mid rcv yh).2) := by
  constructor
  · exact append_store_idem
  · intro m wb client region mid rcv yh
    by_cases h : ((wb.map (fun sh =>
        normalize_sheet sh client region (pyUpper (pyStrip sh.name)) mid rcv
          sh.name yh)).filter (fun l => !l.isEmpty)).isEmpty
    · simp [ingest_excel, h]
    · simp only [ingest_excel, h, Bool.false_eq_true, if_false]
      exact append_store_idem m _

/-! ## Claim C3 -/

/-- C3: upserting a batch containing a row with the same identity tuple as a
stored row but a different value replaces the stored row — afterwards the
identity tuple maps to the new row and the old row is retrievable under no
identity tuple at all. -/
theorem claim_C3_replace_on_conflict (m : Store) (oldR newR : SRow)
    (hwf : StoreWF m) (hold : m (rowKey oldR) = some oldR)
    (hkey : rowKey newR = rowKey oldR) (hval : newR.value ≠ oldR.value) :
    (append_timeseries m [newR]).2 (rowKey oldR) = some newR ∧
      ∀ k, (append_timeseries m [newR]).2 k ≠ some oldR := by
  have hstep : (append_timeseries m [newR]).2 = insertOrReplace m newR := rfl
  constructor
  · rw [hstep, insertOrReplace_apply, if_pos hkey.symm]
  · intro k
    rw [hstep, insertOrReplace_apply]
    by_cases hk : k = rowKey newR
    · rw [if_pos hk]
      intro hcon
      cases hcon
      exact hval rfl
    · rw [if_neg hk]
      intro hcon
      exact hk (hkey.trans (hwf k oldR hcon)).symm

/-- C3 witness: a concrete store holding a CPU row with value 10; upserting
the same identity with value 11 stores 11 and 10 is gone. -/
theorem claim_C3_witness :
    (append_timeseries wStore [wNew]).2 (rowKey wOld) = some wNew ∧
      (append_timeseries wStore [wNew]).2 (rowKey wOld) ≠ some wOld := by
  have h := claim_C3_replace_on_conflict wStore wOld wNew
    (storeWF_insertOrReplace _ _ storeWF_empty)
    (by simp [wStore, insertOrReplace, Function.update_same])
    rfl
    (by decide)
  exact ⟨h.1, h.2 (rowKey wOld)⟩

/-! ## Claim C2 -/

/-- C2: the region filter shared by stats, by-date and latest queries
partitions the rows: a non-blank region argument matches exactly the rows
storing that trimmed region; an omitted or blank region argument matches
exactly the rows whose region is NULL or empty; no row matches both modes; and
a client ingesting with `region=""` is stored as NULL, hence returned by the
region-omitted query and not by a `region="EMEA"` query. -/
theorem claim_C2_region_partition :
    (∀ (s : String) (rr : Option String), pyStrip s ≠ "" →
        region_where_matches (some s) rr = true → rr = some (pyStrip s)) ∧
    (∀ rr : Option String,
        region_where_matches none rr = true → rr = none ∨ rr = some "") ∧
    (∀ (s : String) (rr : Option String), pyStrip s = "" →
        region_where_matches (some s) rr = region_where_matches none rr) ∧
    (∀ (s : String) (rr : Option String), pyStrip s ≠ "" →
        ¬(region_where_matches (some s) rr = true ∧
          region_where_matches none rr = true)) ∧
    (normalize_region (some "") = none ∧
      region_where_matches none (normalize_region (some "")) = true ∧
      region_where_matches (some "EMEA") (normalize_region (some "")) = false) := by
  have hprov : ∀ (s : String) (rr : Option String), pyStrip s ≠ "" →
      region_where_matches (some s) rr = true → rr = some (pyStrip s) := by
    intro s rr hs h
    simp only [region_where_matches, if_pos hs] at h
    exact eq_of_beq h
  have homit : ∀ rr : Option String,
      region_where_matches none rr = true → rr = none ∨ rr = some "" := by
    intro rr h
    simp only [region_where_matches, Bool.or_eq_true, beq_iff_eq] at h
    exact h
  refine ⟨hprov, homit, ?_, ?_, by decide, by decide, by decide⟩
  · intro s rr hs
    simp [region_where_matches, hs]
  · intro s rr hs ⟨h1, h2⟩
    have he := hprov s rr hs h1
    rcases homit rr h2 with h3 | h3
    · rw [he] at h3
      cases h3
    · rw [he] at h3
      injection h3 with h4
      exact hs h4

/-- C2 witness: the two filter modes evaluated on a concrete stored region. -/
theorem claim_C2_witness :
    ¬(region_where_matches (some "EMEA") (some "EMEA") = true ∧
      region_where_matches none (some "EMEA") = true) :=
  claim_C2_region_partition.2.2.2.1 "EMEA" (some "EMEA") (by decide)

/-! ## Claim C4 -/

/-- C4 (documents a code bug): `_normalize_slot` evaluated on the five inputs
named by the claim.  The code returns no match for `"930"` — the
`len(raw) == 4` compact-form test never fires for a 3-digit time — although
the function's own docstring says `'930'` is accepted and the claim (with the
spec) says it normalizes to `"09:30:00"`.  The other four inputs behave as
claimed. -/
theorem claim_C4_slot_normalization_eval :
    normalize_slot "930" = none ∧
    normalize_slot "9:30" = some "09:30:00" ∧
    normalize_slot "09:30" = some "09:30:00" ∧
    normalize_slot "09:30:00" = some "09:30:00" ∧
    normalize_slot "10:15" = none := by
  refine ⟨?_, ?_, ?_, ?_, ?_⟩ <;> decide

/-! ## Claim C9 -/

/-- C9: workbook ingestion treats sheets independently — a sheet that
normalizes to no usable rows is skipped without failing the operation or
affecting the other sheets' rows, and a workbook in which every sheet is
unusable yields `(0, 0)` with the store untouched, not an error. -/
theorem claim_C9_sheet_isolation (m : Store) (client : String)
    (region : Option String) (mid : String) (rcv : Option String) (yh : Int) :
    (∀ wb : List Sheet,
        (∀ sh ∈ wb, normalize_sheet sh client region (pyUpper (pyStrip sh.name))
            mid rcv sh.name yh = []) →
        ingest_excel m wb client region mid rcv yh = ((0, 0), m)) ∧
    (∀ (pre post : List Sheet) (bad : Sheet),
        normalize_sheet bad client region (pyUpper (pyStrip bad.name)) mid rcv
            bad.name yh = [] →
        ingest_excel m (pre ++ bad :: post) client region mid rcv yh =
          ingest_excel m (pre ++ post) client region mid rcv yh) := by
  constructor
  · intro wb hall
    have hfil : (wb.map (fun sh =>
        normalize_sheet sh client region (pyUpper (pyStrip sh.name)) mid rcv
          sh.name yh)).filter (fun l => !l.isEmpty) = [] := by
      rw [List.filter_eq_nil_iff]
      intro l hl
      rcases List.mem_map.mp hl with ⟨sh, hsh, rfl⟩
      rw [hall sh hsh]
      decide
    simp [ingest_excel, hfil]
  · intro pre post bad hbad
    have hmap : ((pre ++ bad :: post).map (fun sh =>
        normalize_sheet sh client region (pyUpper (pyStrip sh.name)) mid rcv
          sh.name yh)).filter (fun l => !l.isEmpty) =
        ((pre ++ post).map (fun sh =>
          normalize_sheet sh client region (pyUpper (pyStrip sh.name)) mid rcv
            sh.name yh)).filter (fun l => !l.isEmpty) := by
      simp [List.filter_append, hbad]
    simp only [ingest_excel, hmap]

/-- C9 witness: a workbook with one good and one malformed sheet ingests
exactly as the workbook without the malformed sheet. -/
theorem claim_C9_witness :
    ingest_excel emptyStore [wGoodSheet, wBadSheet] "acme" none "m1" none 2024 =
      ingest_excel emptyStore [wGoodSheet] "acme" none "m1" none 2024 :=
  (claim_C9_sheet_isolation emptyStore "acme" none "m1" none 2024).2
    [wGoodSheet] [] wBadSheet (by decide)

/-! ## Lemmas about canonical formatting (claims C6 and C10) -/

lemma digitChar_isDigit_of_lt (x : Nat) (h : x < 10) :
    (Nat.digitChar x).isDigit = true := by
  interval_cases x <;> decide

lemma digitChar_mod_isDigit (x : Nat) : (Nat.digitChar (x % 10)).isDigit = true :=
  digitChar_isDigit_of_lt _ (Nat.mod_lt _ (by norm_num))

lemma format_utc_canonical (t : UtcInstant) :
    canonicalTsShape (format_utc t) = true := by
  simp [canonicalTsShape, format_utc, pad4, pad2, digitChar_mod_isDigit]

/-! ## Claim C6 -/

/-- C6: for every header string accepted by `parse_header` under any year
hint, the canonical formatter renders the parsed instant as a fixed-width
string matching the regex `^\d{4}-\d{2}-\d{2} \d{2}:\d{2}:\d{2}\+00:00$`
(zero-padded, second precision, literal `+00:00` offset). -/
theorem claim_C6_canonical_roundtrip (H : String) (Y : Int) (t : UtcInstant)
    (h : parse_header H Y = some t) :
    canonicalTsShape (format_utc t) = true :=
  format_utc_canonical t

/-- C6 witness: the spec's Scenario A header under year hint 2024. -/
theorem claim_C6_witness :
    canonicalTsShape (format_utc ⟨2024, 8, 21, 9, 30, 0⟩) = true :=
  claim_C6_canonical_roundtrip "08/21-0930" 2024 ⟨2024, 8, 21, 9, 30, 0⟩ (by decide)

/-! ## Lemmas about the header regex (claim C5) -/

lemma takeWhile_all_append {α : Type} {p : α → Bool} (l r : List α)
    (hl : ∀ x ∈ l, p x = true) (hr : ∀ x, r.head? = some x → p x = false) :
    (l ++ r).takeWhile p = l ∧ (l ++ r).dropWhile p = r := by
  induction l with
  | nil =>
    cases r with
    | nil => simp
    | cons x t =>
      have hx := hr x rfl
      simp [List.takeWhile_cons, List.dropWhile_cons, hx]
  | cons a l ih =>
    have ha := hl a (List.mem_cons_self a l)
    have ih2 := ih (fun x hx => hl x (List.mem_cons_of_mem a hx))
    simp [List.takeWhile_cons, List.dropWhile_cons, ha, ih2.1, ih2.2]

lemma sepChars_not_digit : ∀ c ∈ sepChars, c.isDigit = false := by decide

lemma sepChars_headerSep : ∀ c ∈ sepChars, headerSep c = true := by decide

lemma allDigit_decomp (rest : List Char) (dl hl : Nat)
    (hall : rest.all Char.isDigit = true) (hd1 : 1 ≤ dl) (hd2 : dl ≤ 2)
    (hh1 : 1 ≤ hl) (hh2 : hl ≤ 2) (hlen : rest.length = dl + hl + 2) :
    ∃ ddD sep hhD miD : List Char,
      rest = ddD ++ sep ++ hhD ++ miD ∧
      (∀ c ∈ ddD, c.isDigit) ∧ (∀ c ∈ hhD, c.isDigit) ∧ (∀ c ∈ miD, c.isDigit) ∧
      1 ≤ ddD.length ∧ ddD.length ≤ 2 ∧
      (sep = [] ∨ ∃ c ∈ sepChars, sep = [c]) ∧
      1 ≤ hhD.length ∧ hhD.length ≤ 2 ∧ miD.length = 2 := by
  have hdig := List.all_eq_true.mp hall
  refine ⟨rest.take dl, [], (rest.drop dl).take hl, (rest.drop dl).drop hl,
    ?_, ?_, ?_, ?_, ?_, ?_, Or.inl rfl, ?_, ?_, ?_⟩
  · simp [List.append_assoc, List.take_append_drop]
  · exact fun c hc => hdig c (List.take_subset dl rest hc)
  · exact fun c hc => hdig c (List.drop_subset dl rest (List.take_subset hl _ hc))
  · exact fun c hc => hdig c (List.drop_subset dl rest (List.drop_subset hl _ hc))
  · simp only [List.length_take]
    omega
  · simp only [List.length_take]
    omega
  · simp only [List.length_take, List.length_drop]
    omega
  · simp only [List.length_take, List.length_drop]
    omega
  · simp only [List.length_drop]
    omega

lemma headerSep_mem {c : Char} (h : headerSep c = true) : c ∈ sepChars := by
  simp only [headerSep, Bool.or_eq_true, beq_iff_eq] at h
  rcases h with (h | h) | h <;> simp [sepChars, h]

lemma matchHeader_shape {cs : List Char} {f : Nat × Nat × Nat × Nat}
    (h : matchHeader cs = some f) : AmendedHeaderShape cs := by
  have hcs : cs.takeWhile Char.isDigit ++ cs.dropWhile Char.isDigit = cs :=
    List.takeWhile_append_dropWhile _ _
  have hmmd : ∀ c ∈ cs.takeWhile Char.isDigit, c.isDigit = true :=
    fun c hc => List.mem_takeWhile_imp hc
  simp only [matchHeader] at h
  split at h
  case isFalse => cases h
  case isTrue hmm =>
    split at h
    case h_2 => cases h
    case h_1 sl rest heq =>
      split at h
      case isTrue => cases h
      case isFalse hne =>
        have hsl : sl = '/' := not_not.mp hne
        rw [hsl] at heq
        split at h
        case isTrue hall =>
          split at h
          case isTrue h4 =>
            obtain ⟨ddD, sep, hhD, miD, hr, hddd, hhhd, hmid, hdl1, hdl2, hsep,
                hhl1, hhl2, hmil⟩ :=
              allDigit_decomp rest 1 1 hall (le_refl 1) (by norm_num)
                (le_refl 1) (by norm_num) (by omega)
            exact ⟨cs.takeWhile Char.isDigit, ddD, sep, hhD, miD,
              by conv_lhs => rw [← hcs, heq, hr]
              , hmmd, hddd, hhhd, hmid, hmm.1, hmm.2, hdl1, hdl2, hsep,
              hhl1, hhl2, hmil⟩
          case isFalse h4 =>
            split at h
            case isTrue h5 =>
              obtain ⟨ddD, sep, hhD, miD, hr, hddd, hhhd, hmid, hdl1, hdl2, hsep,
                  hhl1, hhl2, hmil⟩ :=
                allDigit_decomp rest 2 1 hall (by norm_num) (le_refl 2)
                  (le_refl 1) (by norm_num) (by omega)
              exact ⟨cs.takeWhile Char.isDigit, ddD, sep, hhD, miD,
                by conv_lhs => rw [← hcs, heq, hr]
                , hmmd, hddd, hhhd, hmid, hmm.1, hmm.2, hdl1, hdl2, hsep,
                hhl1, hhl2, hmil⟩
            case isFalse h5 =>
              split at h
              case isFalse => cases h
              case isTrue h6 =>
                obtain ⟨ddD, sep, hhD, miD, hr, hddd, hhhd, hmid, hdl1, hdl2, hsep,
                    hhl1, hhl2, hmil⟩ :=
                  allDigit_decomp rest 2 2 hall (by norm_num) (le_refl 2)
                    (by norm_num) (le_refl 2) (by omega)
                exact ⟨cs.takeWhile Char.isDigit, ddD, sep, hhD, miD,
                  by conv_lhs => rw [← hcs, heq, hr]
                  , hmmd, hddd, hhhd, hmid, hmm.1, hmm.2, hdl1, hdl2, hsep,
                  hhl1, hhl2, hmil⟩
        case isFalse hall =>
          split at h
          case h_2 => cases h
          case h_1 c timeD heq2 =>
            split at h
            case isFalse => cases h
            case isTrue hcond =>
              obtain ⟨hsepc, hdl1, hdl2, htall, htl3, htl4⟩ := hcond
              have hrest : rest.takeWhile Char.isDigit ++ rest.dropWhile Char.isDigit
                  = rest := List.takeWhile_append_dropWhile _ _
              have htd := List.all_eq_true.mp htall
              have hr2 : rest = rest.takeWhile Char.isDigit ++ [c] ++
                  timeD.take (timeD.length - 2) ++ timeD.drop (timeD.length - 2) := by
                conv_lhs => rw [← hrest, heq2]
                simp [List.append_assoc, List.take_append_drop]
              refine ⟨cs.takeWhile Char.isDigit, rest.takeWhile Char.isDigit, [c],
                timeD.take (timeD.length - 2), timeD.drop (timeD.length - 2),
                ?_, hmmd, ?_, ?_, ?_, hmm.1, hmm.2, hdl1, hdl2,
                Or.inr ⟨c, headerSep_mem hsepc, rfl⟩, ?_, ?_, ?_⟩
              · conv_lhs => rw [← hcs, heq, hr2]
              · exact fun x hx => List.mem_takeWhile_imp hx
              · exact fun x hx => htd x (List.take_subset _ _ hx)
              · exact fun x hx => htd x (List.drop_subset _ _ hx)
              · simp only [List.length_take]
                omega
              · simp only [List.length_take]
                omega
              · simp only [List.length_drop]
                omega

lemma matchHeader_complete {cs : List Char} (h : AmendedHeaderShape cs) :
    ∃ f, matchHeader cs = some f := by
  obtain ⟨mmD, ddD, sep, hhD, miD, hcs, hmd, hdd, hhd, hmid, hm1, hm2, hd1, hd2,
    hsep, hh1, hh2, hmi⟩ := h
  have hslash : ∀ x : Char,
      (('/' :: (ddD ++ sep ++ hhD ++ miD)).head? = some x) → x.isDigit = false := by
    intro x hx
    injection hx with hx2
    rw [← hx2]
    decide
  obtain ⟨htake, hdrop⟩ :=
    takeWhile_all_append mmD ('/' :: (ddD ++ sep ++ hhD ++ miD)) hmd hslash
  rcases hsep with rfl | ⟨c, hcmem, rfl⟩
  · -- no separator: the tail after the slash is all digits
    have hall : (ddD ++ [] ++ hhD ++ miD).all Char.isDigit = true := by
      rw [List.all_eq_true]
      intro x hx
      simp only [List.append_nil, List.mem_append] at hx
      rcases hx with (hx | hx) | hx
      · exact hdd x hx
      · exact hhd x hx
      · exact hmid x hx
    have hlen : (ddD ++ [] ++ hhD ++ miD).length = ddD.length + hhD.length + 2 := by
      simp [hmi]
      omega
    rw [hcs]
    simp only [matchHeader, htake, hdrop, if_pos (And.intro hm1 hm2)]
    rw [if_neg (not_not_intro rfl), if_pos hall]
    rcases (by omega : ddD.length = 1 ∨ ddD.length = 2) with hdl | hdl <;>
      rcases (by omega : hhD.length = 1 ∨ hhD.length = 2) with hhl | hhl
    · rw [if_pos (by omega)]
      exact ⟨_, rfl⟩
    · rw [if_neg (by omega), if_pos (by omega)]
      exact ⟨_, rfl⟩
    · rw [if_neg (by omega), if_pos (by omega)]
      exact ⟨_, rfl⟩
    · rw [if_neg (by omega), if_neg (by omega), if_pos (by omega)]
      exact ⟨_, rfl⟩
  · -- separator present: the first non-digit after the day run is the separator
    have hcd : c.isDigit = false := sepChars_not_digit c hcmem
    have hcmemrest : c ∈ ddD ++ [c] ++ hhD ++ miD := by simp
    have hnall : (ddD ++ [c] ++ hhD ++ miD).all Char.isDigit = false := by
      rw [Bool.eq_false_iff]
      intro hall
      have := List.all_eq_true.mp hall c hcmemrest
      rw [hcd] at this
      cases this
    have hr3 : ddD ++ [c] ++ hhD ++ miD = ddD ++ (c :: (hhD ++ miD)) := by
      simp [List.append_assoc]
    have hhead : ∀ x : Char, ((c :: (hhD ++ miD)).head? = some x) → x.isDigit = false := by
      intro x hx
      injection hx with hx2
      rw [← hx2]
      exact hcd
    obtain ⟨htake2, hdrop2⟩ := takeWhile_all_append ddD (c :: (hhD ++ miD)) hdd hhead
    have htall : (hhD ++ miD).all Char.isDigit = true := by
      rw [List.all_eq_true]
      intro x hx
      rcases List.mem_append.mp hx with hx | hx
      · exact hhd x hx
      · exact hmid x hx
    have htlen : (hhD ++ miD).length = hhD.length + 2 := by simp [hmi]
    rw [hcs]
    simp only [matchHeader, htake, hdrop, if_pos (And.intro hm1 hm2)]
    rw [if_neg (not_not_intro rfl),
      if_neg (show ¬((ddD ++ [c] ++ hhD ++ miD).all Char.isDigit = true) by
        rw [hnall]
        exact Bool.false_ne_true),
      hr3]
    simp only [htake2, hdrop2]
    rw [if_pos ⟨sepChars_headerSep c hcmem, hd1, hd2, htall, by omega, by omega⟩]
    exact ⟨_, rfl⟩

/-! ## Claim C5 -/

/-- C5 counterexample: the header `"8/21-930"` has a 1-digit hour, so it is
not of the shape the claim says is required (`specHeaderShape`, the spec's
exact 2-digit-hour pattern, rejects it), yet `parse_header` accepts it — the
hour group of the code's regex is `(\d{1,2})`, not `(\d{2})`. -/
theorem claim_C5_counterexample :
    parse_header "8/21-930" 2024 = some ⟨2024, 8, 21, 9, 30, 0⟩ ∧
      specHeaderShape "8/21-930" = false := by
  constructor <;> decide

/-- C5 (amended): `parse_header` accepts exactly the headers whose stripped
text has shape `MM/DD[-_ ]?H{1,2}MM` — 1-2 digit month, day and hour, exactly
2-digit minute, at most one separator from `[-_ ]` — subject to the captured
calendar values being valid and representable: every accepted header has the
shape; every string without the shape yields no match; a shape-matching
header whose captured values fail the calendar/representability check (e.g.
month 13) yields no match; and a shape-matching header whose captured values
pass the check is accepted. -/
theorem claim_C5_header_shape :
    (∀ (s : String) (y : Int) (t : UtcInstant),
        parse_header s y = some t → AmendedHeaderShape (pyStrip s).data) ∧
    (∀ (s : String), ¬ AmendedHeaderShape (pyStrip s).data →
        ∀ y : Int, parse_header s y = none) ∧
    (∀ (s : String) (y : Int) (mm dd hh mi : Nat),
        matchHeader (pyStrip s).data = some (mm, dd, hh, mi) →
        pdDatetimeOK y mm dd hh mi = false → parse_header s y = none) ∧
    (∀ (s : String) (y : Int), AmendedHeaderShape (pyStrip s).data →
        (∀ mm dd hh mi : Nat, matchHeader (pyStrip s).data = some (mm, dd, hh, mi) →
          pdDatetimeOK y mm dd hh mi = true) →
        ∃ t, parse_header s y = some t) := by
  have hsound : ∀ (s : String) (y : Int) (t : UtcInstant),
      parse_header s y = some t → AmendedHeaderShape (pyStrip s).data := by
    intro s y t h
    unfold parse_header at h
    cases hm : matchHeader (pyStrip s).data with
    | none => rw [hm] at h; cases h
    | some f => exact matchHeader_shape hm
  refine ⟨hsound, ?_, ?_, ?_⟩
  · intro s hshape y
    cases hp : parse_header s y with
    | none => rfl
    | some t => exact absurd (hsound s y t hp) hshape
  · intro s y mm dd hh mi hm hbad
    unfold parse_header
    rw [hm]
    dsimp only
    rw [hbad]
    rfl
  · intro s y hshape hok
    obtain ⟨f, hf⟩ := matchHeader_complete hshape
    obtain ⟨mm, dd, hh, mi⟩ := f
    unfold parse_header
    rw [hf]
    dsimp only
    rw [hok mm dd hh mi hf]
    exact ⟨_, rfl⟩

/-- C5 witness: the soundness direction applied to the accepted header
`"08/21-0930"` under year hint 2024. -/
theorem claim_C5_witness : AmendedHeaderShape (pyStrip "08/21-0930").data :=
  claim_C5_header_shape.1 "08/21-0930" 2024 ⟨2024, 8, 21, 9, 30, 0⟩ (by decide)

/-! ## Lemmas about sorted distinct keys and window selection (claims C7, C8) -/

lemma mem_sortedUnique {α : Type} [LinearOrder α] [DecidableEq α] {x : α}
    {l : List α} : x ∈ sortedUnique l ↔ x ∈ l := by
  unfold sortedUnique
  rw [(List.perm_insertionSort _ _).mem_iff, List.mem_dedup]

lemma sorted_sortedUnique {α : Type} [LinearOrder α] [DecidableEq α] (l : List α) :
    List.Sorted (fun a b => a ≤ b) (sortedUnique l) :=
  List.sorted_insertionSort _ _

lemma nodup_sortedUnique {α : Type} [LinearOrder α] [DecidableEq α] (l : List α) :
    (sortedUnique l).Nodup :=
  (List.perm_insertionSort _ _).nodup_iff.mpr (List.nodup_dedup l)

lemma sortedUnique_ne_nil {α : Type} [LinearOrder α] [DecidableEq α] {l : List α}
    (h : l ≠ []) : sortedUnique l ≠ [] := by
  obtain ⟨a, ha⟩ := List.exists_mem_of_ne_nil l h
  exact List.ne_nil_of_mem (mem_sortedUnique.mpr ha)

lemma sorted_nodup_ext {α : Type} [LinearOrder α] {l l2 : List α}
    (s1 : List.Sorted (fun a b => a ≤ b) l) (s2 : List.Sorted (fun a b => a ≤ b) l2)
    (n1 : l.Nodup) (n2 : l2.Nodup) (h : ∀ x, x ∈ l ↔ x ∈ l2) : l = l2 :=
  List.eq_of_perm_of_sorted ((List.perm_ext_iff_of_nodup n1 n2).mpr h) s1 s2

lemma lastN_sublist {α : Type} (n : Nat) (l : List α) : (lastN n l).Sublist l :=
  List.drop_sublist _ _

lemma lastN_subset {α : Type} (n : Nat) (l : List α) : ∀ x ∈ lastN n l, x ∈ l :=
  fun x hx => (lastN_sublist n l).subset hx

lemma lastN_sorted {α : Type} [LinearOrder α] {l : List α}
    (h : List.Sorted (fun a b => a ≤ b) l) (n : Nat) :
    List.Sorted (fun a b => a ≤ b) (lastN n l) :=
  h.sublist (lastN_sublist n l)

lemma lastN_nodup {α : Type} {l : List α} (h : l.Nodup) (n : Nat) :
    (lastN n l).Nodup :=
  List.Nodup.sublist (lastN_sublist n l) h

lemma lastN_length {α : Type} (n : Nat) (l : List α) :
    (lastN n l).length = min n l.length := by
  simp only [lastN, List.length_drop]
  omega

lemma lastN_ne_nil {α : Type} {l : List α} (h : l ≠ []) {n : Nat} (hn : 1 ≤ n) :
    lastN n l ≠ [] := by
  intro h2
  have h3 := congrArg List.length h2
  rw [lastN_length] at h3
  simp only [List.length_nil] at h3
  have h4 := List.length_pos.mpr h
  omega

lemma sel_mem_iff (rows : List QRow) (key : QRow → Nat) (lnd : List Nat)
    (hsub : ∀ x ∈ lnd, x ∈ rows.map key) :
    ∀ x, x ∈ (rows.filter (fun r => decide (key r ∈ lnd))).map key ↔ x ∈ lnd := by
  intro x
  constructor
  · intro hx
    rcases List.mem_map.mp hx with ⟨r, hr, rfl⟩
    exact of_decide_eq_true (List.mem_filter.mp hr).2
  · intro hx
    rcases List.mem_map.mp (hsub x hx) with ⟨r, hr, rfl⟩
    exact List.mem_map.mpr ⟨r, List.mem_filter.mpr ⟨hr, decide_eq_true hx⟩, rfl⟩

lemma sel_ne_nil (rows : List QRow) (key : QRow → Nat) (lnd : List Nat)
    (hne : lnd ≠ []) (hsub : ∀ x ∈ lnd, x ∈ rows.map key) :
    rows.filter (fun r => decide (key r ∈ lnd)) ≠ [] := by
  obtain ⟨x, hx⟩ := List.exists_mem_of_ne_nil lnd hne
  rcases List.mem_map.mp (hsub x hx) with ⟨r, hr, rfl⟩
  exact List.ne_nil_of_mem (List.mem_filter.mpr ⟨hr, decide_eq_true hx⟩)

lemma groupby_param_covers (sel : List QRow) (key : QRow → Nat) (x : Nat) :
    (∃ p ∈ sortedUnique (sel.map (fun r => r.parameter)),
        x ∈ (sel.filter (fun r => decide (r.parameter = p))).map key) ↔
      x ∈ sel.map key := by
  constructor
  · rintro ⟨p, hp, hx⟩
    rcases List.mem_map.mp hx with ⟨r, hr, rfl⟩
    exact List.mem_map.mpr ⟨r, (List.mem_filter.mp hr).1, rfl⟩
  · intro hx
    rcases List.mem_map.mp hx with ⟨r, hr, rfl⟩
    exact ⟨r.parameter, mem_sortedUnique.mpr (List.mem_map.mpr ⟨r, hr, rfl⟩),
      List.mem_map.mpr ⟨r, List.mem_filter.mpr ⟨hr, decide_eq_true rfl⟩, rfl⟩⟩

lemma daily_stats_dates (g : List QRow) :
    (daily_stats_for_param g).map (fun d => d.date) = sortedUnique (g.map dateKey) := by
  unfold daily_stats_for_param
  rw [List.map_map]
  conv_rhs => rw [← List.map_id (sortedUnique (g.map dateKey))]
  refine List.map_congr_left fun d hd => ?_
  simp only [Function.comp_apply, id_eq]
  cases hmx : maxByKey (fun r => r.value)
      (List.insertionSort rowTsLe (g.filter (fun r => decide (dateKey r = d)))) <;>
    cases hmn : minByKey (fun r => r.value)
      (List.insertionSort rowTsLe (g.filter (fun r => decide (dateKey r = d)))) <;>
    simp [hmx, hmn]

lemma monthly_stats_months (g : List QRow) :
    (monthly_stats_for_param g).map (fun r => r.month) =
      sortedUnique (g.map monthKey) := by
  unfold monthly_stats_for_param
  rw [List.map_map]
  conv_rhs => rw [← List.map_id (sortedUnique (g.map monthKey))]
  exact List.map_congr_left fun m hm => rfl

lemma compute_stats_days_eq (rows : List QRow) (n : Int) (sel : List QRow)
    (hrows : rows ≠ [])
    (hsel_def : sel = rows.filter (fun r => decide (dateKey r ∈
      lastN (max 1 (min 7 n)).toNat (sortedUnique (rows.map dateKey)))))
    (hsel : sel ≠ []) :
    compute_stats_days rows n =
      (sortedUnique (sel.map (fun r => r.parameter))).map (fun p =>
        ⟨p, daily_stats_for_param (sel.filter (fun r => decide (r.parameter = p))),
          rolling_days_summary (daily_stats_for_param
            (sel.filter (fun r => decide (r.parameter = p))))⟩) := by
  subst hsel_def
  simp only [compute_stats_days]
  rw [if_neg (by simp [List.isEmpty_iff, hrows]),
    if_neg (by simp only [List.isEmpty_iff]; exact hsel)]

lemma compute_stats_months_eq (rows : List QRow) (n : Int) (sel : List QRow)
    (hrows : rows ≠ [])
    (hsel_def : sel = rows.filter (fun r => decide (monthKey r ∈
      lastN (max 1 (min 6 n)).toNat (sortedUnique (rows.map monthKey)))))
    (hsel : sel ≠ []) :
    compute_stats_months rows n =
      (sortedUnique (sel.map (fun r => r.parameter))).map (fun p =>
        ⟨p, (monthly_stats_for_param (sel.filter (fun r => decide (r.parameter = p)))).filter
              (fun r => decide (r.month ∈
                lastN (max 1 (min 6 n)).toNat (sortedUnique (rows.map monthKey)))),
          rolling_months_summary
            ((monthly_stats_for_param (sel.filter (fun r => decide (r.parameter = p)))).filter
              (fun r => decide (r.month ∈
                lastN (max 1 (min 6 n)).toNat (sortedUnique (rows.map monthKey)))))⟩) := by
  subst hsel_def
  simp only [compute_stats_months]
  rw [if_neg (by simp [List.isEmpty_iff, hrows]),
    if_neg (by simp only [List.isEmpty_iff]; exact hsel)]

lemma coveredDates_mem (rows : List QRow) (n : Int) (hrows : rows ≠ []) :
    ∀ x, x ∈ coveredDates (compute_stats_days rows n) ↔
      x ∈ lastN (max 1 (min 7 n)).toNat (sortedUnique (rows.map dateKey)) := by
  intro x
  have hmap_ne : rows.map dateKey ≠ [] := fun h => hrows (List.map_eq_nil_iff.mp h)
  have hdne := sortedUnique_ne_nil hmap_ne
  have hnn1 : 1 ≤ (max 1 (min 7 n)).toNat := by omega
  have hlnd_ne := lastN_ne_nil hdne hnn1
  have hlnd_sub : ∀ z ∈ lastN (max 1 (min 7 n)).toNat (sortedUnique (rows.map dateKey)),
      z ∈ rows.map dateKey :=
    fun z hz => mem_sortedUnique.mp (lastN_subset _ _ z hz)
  have hsel_ne := sel_ne_nil rows dateKey _ hlnd_ne hlnd_sub
  rw [compute_stats_days_eq rows n _ hrows rfl hsel_ne]
  unfold coveredDates
  rw [mem_sortedUnique, List.mem_flatMap]
  constructor
  · rintro ⟨pd, hpd, hx⟩
    rcases List.mem_map.mp hpd with ⟨p, hp, rfl⟩
    simp only at hx
    rw [daily_stats_dates, mem_sortedUnique] at hx
    have h1 := (groupby_param_covers _ dateKey x).mp ⟨p, hp, hx⟩
    exact (sel_mem_iff rows dateKey _ hlnd_sub x).mp h1
  · intro hx
    have hx2 := (sel_mem_iff rows dateKey _ hlnd_sub x).mpr hx
    obtain ⟨p, hp, hx3⟩ := (groupby_param_covers _ dateKey x).mpr hx2
    refine ⟨_, List.mem_map.mpr ⟨p, hp, rfl⟩, ?_⟩
    simp only
    rw [daily_stats_dates, mem_sortedUnique]
    exact hx3

lemma month_group_mem (g : List QRow) (lnd : List Nat) (x : Nat) :
    x ∈ ((monthly_stats_for_param g).filter
        (fun r => decide (r.month ∈ lnd))).map (fun r => r.month) ↔
      x ∈ g.map monthKey ∧ x ∈ lnd := by
  constructor
  · intro hx
    rcases List.mem_map.mp hx with ⟨r, hr, rfl⟩
    rcases List.mem_filter.mp hr with ⟨hr1, hr2⟩
    have : r.month ∈ (monthly_stats_for_param g).map (fun r => r.month) :=
      List.mem_map.mpr ⟨r, hr1, rfl⟩
    rw [monthly_stats_months, mem_sortedUnique] at this
    exact ⟨this, of_decide_eq_true hr2⟩
  · rintro ⟨hx1, hx2⟩
    have : x ∈ (monthly_stats_for_param g).map (fun r => r.month) := by
      rw [monthly_stats_months, mem_sortedUnique]
      exact hx1
    rcases List.mem_map.mp this with ⟨r, hr, rfl⟩
    exact List.mem_map.mpr ⟨r, List.mem_filter.mpr ⟨hr, decide_eq_true hx2⟩, rfl⟩

lemma coveredMonths_mem (rows : List QRow) (n : Int) (hrows : rows ≠ []) :
    ∀ x, x ∈ coveredMonths (compute_stats_months rows n) ↔
      x ∈ lastN (max 1 (min 6 n)).toNat (sortedUnique (rows.map monthKey)) := by
  intro x
  have hmap_ne : rows.map monthKey ≠ [] := fun h => hrows (List.map_eq_nil_iff.mp h)
  have hdne := sortedUnique_ne_nil hmap_ne
  have hnn1 : 1 ≤ (max 1 (min 6 n)).toNat := by omega
  have hlnd_ne := lastN_ne_nil hdne hnn1
  have hlnd_sub : ∀ z ∈ lastN (max 1 (min 6 n)).toNat (sortedUnique (rows.map monthKey)),
      z ∈ rows.map monthKey :=
    fun z hz => mem_sortedUnique.mp (lastN_subset _ _ z hz)
  have hsel_ne := sel_ne_nil rows monthKey _ hlnd_ne hlnd_sub
  rw [compute_stats_months_eq rows n _ hrows rfl hsel_ne]
  unfold coveredMonths
  rw [mem_sortedUnique, List.mem_flatMap]
  constructor
  · rintro ⟨pd, hpd, hx⟩
    rcases List.mem_map.mp hpd with ⟨p, hp, rfl⟩
    simp only at hx
    exact ((month_group_mem _ _ x).mp hx).2
  · intro hx
    have hx2 := (sel_mem_iff rows monthKey _ hlnd_sub x).mpr hx
    obtain ⟨p, hp, hx3⟩ := (groupby_param_covers _ monthKey x).mpr hx2
    refine ⟨_, List.mem_map.mpr ⟨p, hp, rfl⟩, ?_⟩
    simp only
    exact (month_group_mem _ _ x).mpr ⟨hx3, hx⟩

/-! ## Claim C7 -/

/-- C7: `compute_stats` with `basis="days"` clamps `n` to `[1, 7]` and its
result covers exactly the most recent `min(clamped n, available)` distinct
calendar UTC dates present in the matching data; with `basis="months"` it
clamps `n` to `[1, 6]` and covers exactly the most recent distinct calendar
months analogously. -/
theorem claim_C7_window (rows : List QRow) (nd nm : Int) (hrows : rows ≠ []) :
    (1 ≤ (max 1 (min 7 nd)).toNat ∧ (max 1 (min 7 nd)).toNat ≤ 7 ∧
      coveredDates (compute_stats_days rows nd) =
        lastN (max 1 (min 7 nd)).toNat (sortedUnique (rows.map dateKey)) ∧
      (lastN (max 1 (min 7 nd)).toNat (sortedUnique (rows.map dateKey))).length =
        min (max 1 (min 7 nd)).toNat (sortedUnique (rows.map dateKey)).length) ∧
    (1 ≤ (max 1 (min 6 nm)).toNat ∧ (max 1 (min 6 nm)).toNat ≤ 6 ∧
      coveredMonths (compute_stats_months rows nm) =
        lastN (max 1 (min 6 nm)).toNat (sortedUnique (rows.map monthKey)) ∧
      (lastN (max 1 (min 6 nm)).toNat (sortedUnique (rows.map monthKey))).length =
        min (max 1 (min 6 nm)).toNat (sortedUnique (rows.map monthKey)).length) := by
  constructor
  · refine ⟨by omega, by omega, ?_, lastN_length _ _⟩
    refine sorted_nodup_ext (sorted_sortedUnique _)
      (lastN_sorted (sorted_sortedUnique _) _) (nodup_sortedUnique _)
      (lastN_nodup (nodup_sortedUnique _) _) ?_
    exact coveredDates_mem rows nd hrows
  · refine ⟨by omega, by omega, ?_, lastN_length _ _⟩
    refine sorted_nodup_ext (sorted_sortedUnique _)
      (lastN_sorted (sorted_sortedUnique _) _) (nodup_sortedUnique _)
      (lastN_nodup (nodup_sortedUnique _) _) ?_
    exact coveredMonths_mem rows nm hrows

/-- C7 witness: a one-row dataset with clamp arguments 2 (days) and 3
(months). -/
theorem claim_C7_witness :
    (1 ≤ (max 1 (min 7 (2 : Int))).toNat ∧ (max 1 (min 7 (2 : Int))).toNat ≤ 7 ∧
      coveredDates (compute_stats_days wRows 2) =
        lastN (max 1 (min 7 (2 : Int))).toNat (sortedUnique (wRows.map dateKey)) ∧
      (lastN (max 1 (min 7 (2 : Int))).toNat (sortedUnique (wRows.map dateKey))).length =
        min (max 1 (min 7 (2 : Int))).toNat (sortedUnique (wRows.map dateKey)).length) ∧
    (1 ≤ (max 1 (min 6 (3 : Int))).toNat ∧ (max 1 (min 6 (3 : Int))).toNat ≤ 6 ∧
      coveredMonths (compute_stats_months wRows 3) =
        lastN (max 1 (min 6 (3 : Int))).toNat (sortedUnique (wRows.map monthKey)) ∧
      (lastN (max 1 (min 6 (3 : Int))).toNat (sortedUnique (wRows.map monthKey))).length =
        min (max 1 (min 6 (3 : Int))).toNat (sortedUnique (wRows.map monthKey)).length) :=
  claim_C7_window wRows 2 3 (by decide)

/-! ## Lemmas about first-maximum selection (claim C8) -/

lemma foldl_maxBy_mem {α : Type} (f : α → ℚ) (t : List α) (a : α) :
    t.foldl (fun best r => if f best < f r then r else best) a ∈ a :: t := by
  induction t generalizing a with
  | nil => exact List.mem_cons_self _ _
  | cons b t ih =>
    simp only [List.foldl_cons]
    by_cases h : f a < f b
    · rw [if_pos h]
      exact List.mem_cons_of_mem a (ih b)
    · rw [if_neg h]
      rcases List.mem_cons.mp (ih a) with h2 | h2
      · rw [h2]
        exact List.mem_cons_self _ _
      · exact List.mem_cons_of_mem a (List.mem_cons_of_mem b h2)

lemma foldl_maxBy_ge {α : Type} (f : α → ℚ) (t : List α) (a : α) :
    ∀ x ∈ a :: t, f x ≤ f (t.foldl (fun best r => if f best < f r then r else best) a) := by
  induction t generalizing a with
  | nil =>
    intro x hx
    rcases List.mem_cons.mp hx with rfl | hx2
    · exact le_refl _
    · cases hx2
  | cons b t ih =>
    intro x hx
    simp only [List.foldl_cons]
    have hac : f a ≤ f (if f a < f b then b else a) := by
      split
      · exact le_of_lt (by assumption)
      · exact le_refl _
    have hbc : f b ≤ f (if f a < f b then b else a) := by
      split
      · exact le_refl _
      · exact le_of_not_lt (by assumption)
    have hcres := ih (if f a < f b then b else a) _ (List.mem_cons_self _ _)
    rcases List.mem_cons.mp hx with rfl | hx2
    · exact le_trans hac hcres
    · rcases List.mem_cons.mp hx2 with rfl | hx3
      · exact le_trans hbc hcres
      · exact ih _ x (List.mem_cons_of_mem _ hx3)

lemma foldl_minBy_mem {α : Type} (f : α → ℚ) (t : List α) (a : α) :
    t.foldl (fun best r => if f r < f best then r else best) a ∈ a :: t := by
  induction t generalizing a with
  | nil => exact List.mem_cons_self _ _
  | cons b t ih =>
    simp only [List.foldl_cons]
    by_cases h : f b < f a
    · rw [if_pos h]
      exact List.mem_cons_of_mem a (ih b)
    · rw [if_neg h]
      rcases List.mem_cons.mp (ih a) with h2 | h2
      · rw [h2]
        exact List.mem_cons_self _ _
      · exact List.mem_cons_of_mem a (List.mem_cons_of_mem b h2)

lemma foldl_minBy_le {α : Type} (f : α → ℚ) (t : List α) (a : α) :
    ∀ x ∈ a :: t, f (t.foldl (fun best r => if f r < f best then r else best) a) ≤ f x := by
  induction t generalizing a with
  | nil =>
    intro x hx
    rcases List.mem_cons.mp hx with rfl | hx2
    · exact le_refl _
    · cases hx2
  | cons b t ih =>
    intro x hx
    simp only [List.foldl_cons]
    have hac : f (if f b < f a then b else a) ≤ f a := by
      split
      · exact le_of_lt (by assumption)
      · exact le_refl _
    have hbc : f (if f b < f a then b else a) ≤ f b := by
      split
      · exact le_refl _
      · exact le_of_not_lt (by assumption)
    have hcres := ih (if f b < f a then b else a) _ (List.mem_cons_self _ _)
    rcases List.mem_cons.mp hx with rfl | hx2
    · exact le_trans hcres hac
    · rcases List.mem_cons.mp hx2 with rfl | hx3
      · exact le_trans hcres hbc
      · exact ih _ x (List.mem_cons_of_mem _ hx3)

/-! ## Claim C8 -/

set_option maxHeartbeats 1600000 in
/-- C8: for every non-empty list of per-date daily stats, the rolling summary
exists, its overall average is the mean of the selected days' daily means
rounded to two decimals, its max day is a day of the list whose within-date
maximum is globally largest, and its min day is a day whose within-date
minimum is globally smallest. -/
theorem claim_C8_rolling_summary (daily : List DailyRow) (h : daily ≠ []) :
    ∃ s, rolling_days_summary daily = some s ∧
      s.avg = round2 (listMean (daily.map (fun r => r.avg))) ∧
      (∀ r ∈ daily, r.maxValue ≤ s.maxDayValue) ∧
      (∃ r ∈ daily, r.date = s.maxDayDate ∧ r.maxValue = s.maxDayValue) ∧
      (∀ r ∈ daily, s.minDayValue ≤ r.minValue) ∧
      (∃ r ∈ daily, r.date = s.minDayDate ∧ r.minValue = s.minDayValue) := by
  cases daily with
  | nil => exact absurd rfl h
  | cons a t =>
    have hmx : maxByKey (fun r : DailyRow => r.maxValue) (a :: t) =
        some (t.foldl (fun best r => if best.maxValue < r.maxValue then r else best) a) := by
      simp [maxByKey]
    have hmn : minByKey (fun r : DailyRow => r.minValue) (a :: t) =
        some (t.foldl (fun best r => if r.minValue < best.minValue then r else best) a) := by
      simp [minByKey]
    have hsum : rolling_days_summary (a :: t) =
        some ⟨round2 (listMean ((a :: t).map (fun r => r.avg))),
          (t.foldl (fun best r => if best.maxValue < r.maxValue then r else best) a).date,
          (t.foldl (fun best r => if best.maxValue < r.maxValue then r else best) a).maxValue,
          (t.foldl (fun best r => if r.minValue < best.minValue then r else best) a).date,
          (t.foldl (fun best r => if r.minValue < best.minValue then r else best) a).minValue⟩ := by
      unfold rolling_days_summary
      rw [hmx, hmn]
    refine ⟨_, hsum, rfl, ?_, ?_, ?_, ?_⟩
    · exact foldl_maxBy_ge (fun r => r.maxValue) t a
    · exact ⟨_, foldl_maxBy_mem (fun r => r.maxValue) t a, rfl, rfl⟩
    · exact foldl_minBy_le (fun r => r.minValue) t a
    · exact ⟨_, foldl_minBy_mem (fun r => r.minValue) t a, rfl, rfl⟩

/-- C8 witness: two concrete daily rows. -/
theorem claim_C8_witness :
    ∃ s, rolling_days_summary wDaily = some s ∧
      s.avg = round2 (listMean (wDaily.map (fun r => r.avg))) ∧
      (∀ r ∈ wDaily, r.maxValue ≤ s.maxDayValue) ∧
      (∃ r ∈ wDaily, r.date = s.maxDayDate ∧ r.maxValue = s.maxDayValue) ∧
      (∀ r ∈ wDaily, s.minDayValue ≤ r.minValue) ∧
      (∃ r ∈ wDaily, r.date = s.minDayDate ∧ r.minValue = s.minDayValue) :=
  claim_C8_rolling_summary wDaily (by decide)

/-! ## Lemmas about lexicographic order on canonical timestamps (claim C10) -/

lemma lex_cons_iff {α : Type} {r : α → α → Prop} {a b : α} {l l2 : List α} :
    List.Lex r (a :: l) (b :: l2) ↔ r a b ∨ (a = b ∧ List.Lex r l l2) := by
  constructor
  · intro h
    cases h with
    | rel h => exact Or.inl h
    | cons h => exact Or.inr ⟨rfl, h⟩
  · rintro (h | ⟨rfl, h⟩)
    · exact List.Lex.rel h
    · exact List.Lex.cons h

lemma list_lex_nil_right {α : Type} {r : α → α → Prop} {l : List α} :
    List.Lex r l [] ↔ False :=
  ⟨fun h => (nomatch h), False.elim⟩

lemma lex_append_iff {α : Type} {r : α → α → Prop} {xs ys : List α}
    (as bs : List α) (h : xs.length = ys.length) :
    List.Lex r (xs ++ as) (ys ++ bs) ↔
      List.Lex r xs ys ∨ (xs = ys ∧ List.Lex r as bs) := by
  induction xs generalizing ys with
  | nil =>
    cases ys with
    | nil =>
      simp only [List.nil_append, list_lex_nil_right, false_or, eq_self_iff_true,
        true_and]
    | cons y ys => simp at h
  | cons x xs ih =>
    cases ys with
    | nil => simp at h
    | cons y ys =>
      simp only [List.cons_append]
      rw [lex_cons_iff, lex_cons_iff, ih (show xs.length = ys.length by simpa using h)]
      constructor
      · rintro (h1 | ⟨rfl, h2 | ⟨rfl, h3⟩⟩)
        · exact Or.inl (Or.inl h1)
        · exact Or.inl (Or.inr ⟨rfl, h2⟩)
        · exact Or.inr ⟨rfl, h3⟩
      · rintro ((h1 | ⟨rfl, h2⟩) | ⟨heq, h3⟩)
        · exact Or.inl h1
        · exact Or.inr ⟨rfl, Or.inl h2⟩
        · injection heq with h4 h5
          subst h4
          subst h5
          exact Or.inr ⟨rfl, Or.inr ⟨rfl, h3⟩⟩

lemma digitChar_lt_iff : ∀ x : Nat, x < 10 → ∀ y : Nat, y < 10 →
    ((Nat.digitChar x < Nat.digitChar y) ↔ x < y) := by decide

lemma digitChar_inj_iff : ∀ x : Nat, x < 10 → ∀ y : Nat, y < 10 →
    ((Nat.digitChar x = Nat.digitChar y) ↔ x = y) := by decide

lemma pad2_lt_iff {n m : Nat} (hn : n ≤ 99) (hm : m ≤ 99) :
    List.Lex (fun a b : Char => a < b) (pad2 n) (pad2 m) ↔ n < m := by
  unfold pad2
  have h1 : n / 10 % 10 = n / 10 := Nat.mod_eq_of_lt (by omega)
  have h2 : m / 10 % 10 = m / 10 := Nat.mod_eq_of_lt (by omega)
  rw [lex_cons_iff, lex_cons_iff, h1, h2,
    digitChar_lt_iff _ (by omega) _ (by omega),
    digitChar_inj_iff _ (by omega) _ (by omega),
    digitChar_lt_iff _ (Nat.mod_lt _ (by norm_num)) _ (Nat.mod_lt _ (by norm_num)),
    list_lex_nil_right]
  constructor
  · rintro (h4 | ⟨h4, h5 | ⟨_, h6⟩⟩)
    · omega
    · omega
    · exact absurd h6 id
  · intro h4
    rcases Nat.lt_or_ge (n / 10) (m / 10) with h5 | h5
    · exact Or.inl h5
    · have h6 : n / 10 = m / 10 ∧ n % 10 < m % 10 := by omega
      exact Or.inr ⟨h6.1, Or.inl h6.2⟩

lemma pad2_eq_iff {n m : Nat} (hn : n ≤ 99) (hm : m ≤ 99) :
    pad2 n = pad2 m ↔ n = m := by
  unfold pad2
  have h1 : n / 10 % 10 = n / 10 := Nat.mod_eq_of_lt (by omega)
  have h2 : m / 10 % 10 = m / 10 := Nat.mod_eq_of_lt (by omega)
  rw [h1, h2]
  simp only [List.cons.injEq, and_true]
  rw [digitChar_inj_iff _ (by omega) _ (by omega),
    digitChar_inj_iff _ (Nat.mod_lt _ (by norm_num)) _ (Nat.mod_lt _ (by norm_num))]
  omega

lemma pad2_append_lex_iff {n m : Nat} (as bs : List Char) :
    List.Lex (fun a b : Char => a < b) (pad2 n ++ as) (pad2 m ++ bs) ↔
      List.Lex (fun a b : Char => a < b) (pad2 n) (pad2 m) ∨
        (pad2 n = pad2 m ∧ List.Lex (fun a b : Char => a < b) as bs) :=
  lex_append_iff as bs rfl

lemma pad4_lt_iff {n m : Nat} (hn : n ≤ 9999) (hm : m ≤ 9999) :
    List.Lex (fun a b : Char => a < b) (pad4 n) (pad4 m) ↔ n < m := by
  unfold pad4
  rw [pad2_append_lex_iff, pad2_lt_iff (by omega) (by omega),
    pad2_eq_iff (by omega) (by omega),
    pad2_lt_iff (by omega) (by omega)]
  constructor
  · rintro (h | ⟨h1, h2⟩) <;> omega
  · intro h
    rcases Nat.lt_or_ge (n / 100) (m / 100) with h5 | h5
    · exact Or.inl h5
    · have h6 : n / 100 = m / 100 ∧ n % 100 < m % 100 := by omega
      exact Or.inr ⟨h6.1, h6.2⟩

lemma pad4_eq_iff {n m : Nat} (hn : n ≤ 9999) (hm : m ≤ 9999) :
    pad4 n = pad4 m ↔ n = m := by
  unfold pad4
  constructor
  · intro h
    obtain ⟨h1, h2⟩ := List.append_inj h rfl
    rw [pad2_eq_iff (by omega) (by omega)] at h1
    rw [pad2_eq_iff (by omega) (by omega)] at h2
    omega
  · rintro rfl
    rfl

lemma pad4_append_lex_iff {n m : Nat} (as bs : List Char) :
    List.Lex (fun a b : Char => a < b) (pad4 n ++ as) (pad4 m ++ bs) ↔
      List.Lex (fun a b : Char => a < b) (pad4 n) (pad4 m) ∨
        (pad4 n = pad4 m ∧ List.Lex (fun a b : Char => a < b) as bs) :=
  lex_append_iff as bs rfl

lemma daysInMonth_le_31 (y m : Nat) : daysInMonth y m ≤ 31 := by
  unfold daysInMonth
  split
  · split <;> omega
  · split <;> omega

lemma daysInMonth_pos (y m : Nat) : 1 ≤ daysInMonth y m := by
  unfold daysInMonth
  split
  · split <;> omega
  · split <;> omega

lemma format_lt_iff {a b : UtcInstant} (ha : ValidInstant a) (hb : ValidInstant b) :
    format_utc a < format_utc b ↔ FieldLex a b := by
  obtain ⟨ha1, ha2, ha3, ha4, ha5, ha6, ha7, ha8, ha9⟩ := ha
  obtain ⟨hb1, hb2, hb3, hb4, hb5, hb6, hb7, hb8, hb9⟩ := hb
  have hdma := daysInMonth_le_31 a.year a.month
  have hdmb := daysInMonth_le_31 b.year b.month
  rw [String.lt_iff_toList_lt]
  have hconv : ((format_utc a).toList < (format_utc b).toList) ↔
      List.Lex (fun x y : Char => x < y) (format_utc a).data (format_utc b).data :=
    Iff.rfl
  rw [hconv]
  unfold format_utc
  simp only [List.append_assoc, List.cons_append]
  simp only [pad4_append_lex_iff, pad2_append_lex_iff, lex_cons_iff,
    lt_self_iff_false, false_or, eq_self_iff_true, true_and, list_lex_nil_right,
    and_false, or_false]
  rw [@pad4_lt_iff a.year b.year (by omega) (by omega),
    @pad4_eq_iff a.year b.year (by omega) (by omega),
    @pad2_lt_iff a.month b.month (by omega) (by omega),
    @pad2_eq_iff a.month b.month (by omega) (by omega),
    @pad2_lt_iff a.day b.day (by omega) (by omega),
    @pad2_eq_iff a.day b.day (by omega) (by omega),
    @pad2_lt_iff a.hour b.hour (by omega) (by omega),
    @pad2_eq_iff a.hour b.hour (by omega) (by omega),
    @pad2_lt_iff a.minute b.minute (by omega) (by omega),
    @pad2_eq_iff a.minute b.minute (by omega) (by omega),
    @pad2_lt_iff a.second b.second (by omega) (by omega)]
  unfold FieldLex
  exact Iff.rfl

lemma daysBeforeMonth_succ (y m : Nat) (h : 1 ≤ m) :
    daysBeforeMonth y (m + 1) = daysBeforeMonth y m + daysInMonth y m := by
  cases m with
  | zero => omega
  | succ k => rfl

lemma daysBeforeMonth_mono (y : Nat) {m m2 : Nat} (h : m ≤ m2) :
    daysBeforeMonth y m ≤ daysBeforeMonth y m2 := by
  induction m2 with
  | zero =>
    have : m = 0 := by omega
    rw [this]
  | succ k ih =>
    rcases Nat.lt_or_ge m (k + 1) with h2 | h2
    · have h3 := ih (by omega)
      have h4 : daysBeforeMonth y k ≤ daysBeforeMonth y (k + 1) := by
        cases k with
        | zero => exact le_refl _
        | succ j =>
          rw [daysBeforeMonth_succ y (j + 1) (by omega)]
          omega
      omega
    · have h5 : m = k + 1 := by omega
      rw [h5]

lemma daysBeforeMonth_13 (y : Nat) :
    daysBeforeMonth y 13 = if isLeap y then 366 else 365 := by
  cases h : isLeap y <;>
    simp [daysBeforeMonth, daysInMonth, h]

set_option maxHeartbeats 1000000 in
lemma daysBeforeYear_succ (y : Nat) (h : 1 ≤ y) :
    daysBeforeYear (y + 1) = daysBeforeYear y + (if isLeap y then 366 else 365) := by
  unfold daysBeforeYear isLeap
  by_cases h4 : y % 4 = 0 <;> by_cases h100 : y % 100 = 0 <;>
    by_cases h400 : y % 400 = 0 <;> simp [h4, h100, h400] <;> omega

lemma daysBeforeYear_mono {y y2 : Nat} (h : y ≤ y2) :
    daysBeforeYear y ≤ daysBeforeYear y2 := by
  induction y2 with
  | zero =>
    have h0 : y = 0 := by omega
    rw [h0]
  | succ k ih =>
    rcases Nat.lt_or_ge y (k + 1) with h2 | h2
    · have h3 := ih (by omega)
      have h4 : daysBeforeYear k ≤ daysBeforeYear (k + 1) := by
        cases k with
        | zero => decide
        | succ j =>
          rw [daysBeforeYear_succ (j + 1) (by omega)]
          split <;> omega
      omega
    · have h5 : y = k + 1 := by omega
      rw [h5]

lemma dayIndex_lt_next_year (y m d : Nat) (h1 : 1 ≤ m) (h2 : m ≤ 12)
    (h3 : d ≤ daysInMonth y m) (hy : 1 ≤ y) :
    dayIndex y m d < daysBeforeYear (y + 1) := by
  unfold dayIndex
  rw [daysBeforeYear_succ y hy]
  have h4 : daysBeforeMonth y (m + 1) = daysBeforeMonth y m + daysInMonth y m :=
    daysBeforeMonth_succ y m h1
  have h5 : daysBeforeMonth y (m + 1) ≤ daysBeforeMonth y 13 :=
    daysBeforeMonth_mono y (by omega)
  have h6 := daysBeforeMonth_13 y
  have h7 := daysInMonth_pos y m
  by_cases hL : isLeap y <;> simp only [hL, if_true, if_false] at h6 ⊢ <;> omega

lemma dayIndex_lt_of_year_lt {a b : UtcInstant} (ha : ValidInstant a)
    (hb : ValidInstant b) (h : a.year < b.year) :
    dayIndex a.year a.month a.day < dayIndex b.year b.month b.day := by
  obtain ⟨ha1, ha2, ha3, ha4, ha5, ha6, ha7, ha8, ha9⟩ := ha
  have h1 := dayIndex_lt_next_year a.year a.month a.day ha3 ha4 ha6 (by omega)
  have h2 : daysBeforeYear (a.year + 1) ≤ daysBeforeYear b.year :=
    daysBeforeYear_mono (by omega)
  unfold dayIndex at h1 ⊢
  omega

lemma dayIndex_lt_of_month_lt {a b : UtcInstant} (ha : ValidInstant a)
    (hb : ValidInstant b) (hy : a.year = b.year) (h : a.month < b.month) :
    dayIndex a.year a.month a.day < dayIndex b.year b.month b.day := by
  obtain ⟨ha1, ha2, ha3, ha4, ha5, ha6, ha7, ha8, ha9⟩ := ha
  have h4 : daysBeforeMonth a.year (a.month + 1) =
      daysBeforeMonth a.year a.month + daysInMonth a.year a.month :=
    daysBeforeMonth_succ a.year a.month ha3
  have h5 : daysBeforeMonth a.year (a.month + 1) ≤ daysBeforeMonth a.year b.month :=
    daysBeforeMonth_mono a.year (by omega)
  unfold dayIndex
  rw [← hy]
  omega

lemma toSeconds_lt_of_fieldLex {a b : UtcInstant} (ha : ValidInstant a)
    (hb : ValidInstant b) (h : FieldLex a b) : toSeconds a < toSeconds b := by
  have ha2 := ha
  have hb2 := hb
  obtain ⟨ha1, hay, ha3, ha4, ha5, ha6, ha7, ha8, ha9⟩ := ha2
  obtain ⟨hb1, hby, hb3, hb4, hb5, hb6, hb7, hb8, hb9⟩ := hb2
  unfold FieldLex at h
  unfold toSeconds
  rcases h with h | ⟨hy, h⟩
  · have := dayIndex_lt_of_year_lt ha hb h
    omega
  · rcases h with h | ⟨hm, h⟩
    · have := dayIndex_lt_of_month_lt ha hb hy h
      omega
    · rcases h with h | ⟨hd, h⟩
      · have hidx : dayIndex a.year a.month a.day < dayIndex b.year b.month b.day := by
          unfold dayIndex
          rw [hy, hm]
          omega
        omega
      · have hidx : dayIndex a.year a.month a.day = dayIndex b.year b.month b.day := by
          unfold dayIndex
          rw [hy, hm, hd]
        rcases h with h | ⟨hh, h⟩
        · omega
        · rcases h with h | ⟨hmi, h⟩
          · omega
          · omega

lemma fieldLex_trichotomy (a b : UtcInstant) :
    FieldLex a b ∨ a = b ∨ FieldLex b a := by
  have hext : (a.year = b.year ∧ a.month = b.month ∧ a.day = b.day ∧
      a.hour = b.hour ∧ a.minute = b.minute ∧ a.second = b.second) → a = b := by
    rintro ⟨h1, h2, h3, h4, h5, h6⟩
    cases a
    cases b
    simp_all
  have h2 : FieldLex a b ∨ (a.year = b.year ∧ a.month = b.month ∧ a.day = b.day ∧
      a.hour = b.hour ∧ a.minute = b.minute ∧ a.second = b.second) ∨ FieldLex b a := by
    unfold FieldLex
    omega
  rcases h2 with h2 | h2 | h2
  · exact Or.inl h2
  · exact Or.inr (Or.inl (hext h2))
  · exact Or.inr (Or.inr h2)

lemma format_le_iff {a b : UtcInstant} (ha : ValidInstant a) (hb : ValidInstant b) :
    toSeconds a ≤ toSeconds b ↔ format_utc a ≤ format_utc b := by
  rw [← not_lt, ← not_lt]
  apply not_congr
  rw [format_lt_iff hb ha]
  constructor
  · intro h
    rcases fieldLex_trichotomy b a with h2 | h2 | h2
    · exact h2
    · rw [h2] at h
      exact absurd h (lt_irrefl _)
    · exact absurd (toSeconds_lt_of_fieldLex ha hb h2) (by omega)
  · intro h
    exact toSeconds_lt_of_fieldLex hb ha h

lemma foldl_maxText (t : List String) (a : String) :
    ∃ m, t.foldl (fun acc s =>
        match acc with
        | none => some s
        | some mm => if mm < s then some s else some mm) (some a) = some m ∧
      m ∈ a :: t ∧ ∀ x ∈ a :: t, x ≤ m := by
  induction t generalizing a with
  | nil =>
    refine ⟨a, rfl, List.mem_cons_self _ _, ?_⟩
    intro x hx
    rcases List.mem_cons.mp hx with rfl | h2
    · exact le_refl _
    · cases h2
  | cons b t ih =>
    by_cases h : a < b
    · obtain ⟨m, hm, hmem, hge⟩ := ih b
      refine ⟨m, ?_, List.mem_cons_of_mem a hmem, ?_⟩
      · rw [List.foldl_cons]
        show t.foldl _ (if a < b then some b else some a) = some m
        rw [if_pos h]
        exact hm
      · intro x hx
        rcases List.mem_cons.mp hx with rfl | hx2
        · exact le_trans (le_of_lt h) (hge _ (List.mem_cons_self _ _))
        · exact hge x hx2
    · obtain ⟨m, hm, hmem, hge⟩ := ih a
      refine ⟨m, ?_, ?_, ?_⟩
      · rw [List.foldl_cons]
        show t.foldl _ (if a < b then some b else some a) = some m
        rw [if_neg h]
        exact hm
      · rcases List.mem_cons.mp hmem with h2 | h2
        · rw [h2]
          exact List.mem_cons_self _ _
        · exact List.mem_cons_of_mem a (List.mem_cons_of_mem b h2)
      · intro x hx
        rcases List.mem_cons.mp hx with rfl | hx2
        · exact hge _ (List.mem_cons_self _ _)
        · rcases List.mem_cons.mp hx2 with rfl | hx3
          · exact le_trans (le_of_not_lt h) (hge _ (List.mem_cons_self _ _))
          · exact hge x (List.mem_cons_of_mem _ hx3)

lemma maxTextTs_spec (l : List String) (h : l ≠ []) :
    ∃ m, maxTextTs l = some m ∧ m ∈ l ∧ ∀ x ∈ l, x ≤ m := by
  cases l with
  | nil => exact absurd rfl h
  | cons a t =>
    obtain ⟨m, hm, hmem, hge⟩ := foldl_maxText t a
    refine ⟨m, ?_, hmem, hge⟩
    unfold maxTextTs
    rw [List.foldl_cons]
    exact hm

/-! ## Claim C10 -/

/-- C10: for valid 4-digit-year UTC instants, chronological order coincides
with lexicographic order of the canonical formatted strings; consequently the
aligned-latest snapshot — string `MAX` over stored `ts_utc` followed by
selection of rows with exactly that string — returns precisely the rows at
the chronologically latest stored instant (and parameters with no row at that
instant are absent, since only rows at the maximum survive the filter). -/
theorem claim_C10_latest_alignment :
    (∀ a b : UtcInstant, ValidInstant a → ValidInstant b →
        (toSeconds a ≤ toSeconds b ↔ format_utc a ≤ format_utc b)) ∧
    (∀ rows : List QRow, (∀ r ∈ rows, ValidInstant r.ts) →
        ∀ r : QRow, r ∈ api_display_latest_aligned rows ↔
          (r ∈ rows ∧ ∀ q ∈ rows, toSeconds q.ts ≤ toSeconds r.ts)) := by
  refine ⟨fun a b ha hb => format_le_iff ha hb, ?_⟩
  intro rows hvalid r
  rcases hrows : rows with _ | ⟨r0, rest⟩
  · simp [api_display_latest_aligned, maxTextTs]
  · rw [← hrows]
    have hne : rows.map (fun q => format_utc q.ts) ≠ [] := by
      rw [hrows]
      simp
    obtain ⟨M, hM, hMmem, hMge⟩ := maxTextTs_spec _ hne
    unfold api_display_latest_aligned
    rw [hM]
    constructor
    · intro hr
      rcases List.mem_filter.mp hr with ⟨hr1, hr2⟩
      have hfr : format_utc r.ts = M := of_decide_eq_true hr2
      refine ⟨hr1, fun q hq => ?_⟩
      have h1 : format_utc q.ts ≤ M := hMge _ (List.mem_map.mpr ⟨q, hq, rfl⟩)
      rw [← hfr] at h1
      exact (format_le_iff (hvalid q hq) (hvalid r hr1)).mpr h1
    · rintro ⟨hr1, hmax⟩
      rcases List.mem_map.mp hMmem with ⟨q0, hq0, hq0f⟩
      have h1 : format_utc q0.ts ≤ format_utc r.ts :=
        (format_le_iff (hvalid q0 hq0) (hvalid r hr1)).mp (hmax q0 hq0)
      have h2 : format_utc r.ts ≤ M := hMge _ (List.mem_map.mpr ⟨r, hr1, rfl⟩)
      have h3 : format_utc r.ts = M := le_antisymm h2 (hq0f ▸ h1)
      exact List.mem_filter.mpr ⟨hr1, decide_eq_true h3⟩

/-- C10 witness: the order equivalence applied to two concrete instants of
the same day. -/
theorem claim_C10_witness :
    toSeconds wInstA ≤ toSeconds wInstB ↔ format_utc wInstA ≤ format_utc wInstB :=
  claim_C10_latest_alignment.1 wInstA wInstB (by decide) (by decide)
